import Mathlib

/-!
# Verification development for the `checksum` utility

A shallow embedding of `src/endian.c`, `src/methods/sum.c` and
`src/methods/sha256.c`, followed by theorems about the embedded code.

Conventions
* Machine integers are natural numbers; every C operation that can wrap is
  followed by an explicit `% 2 ^ w`.
* A byte is a natural number below 256; memory is a list of bytes, lowest
  address first.
* The byte order of the host is a parameter (`Endian`) of every function whose
  C code looks at the object representation of an integer.
* Standard output is a list of characters.
-/

namespace Checksum

/-! ## Host model: object representation of unsigned integers -/

/-- Byte order of the host that runs the program. -/
inductive Endian where
  | little
  | big
  deriving DecidableEq, Repr

/-- The `n` bytes of `x`, least significant first. -/
def leBytes : Nat → Nat → List Nat
  | 0, _ => []
  | n + 1, x => (x % 256) :: leBytes n (x / 256)

/-- Value of a byte list read least significant byte first. -/
def leValue : List Nat → Nat
  | [] => 0
  | b :: bs => b + 256 * leValue bs

/-- Object representation of the `n`-byte unsigned integer `x` on host `e`:
its bytes in memory, lowest address first. -/
def bytesOfWord (e : Endian) (n : Nat) (x : Nat) : List Nat :=
  match e with
  | Endian.little => leBytes n x
  | Endian.big => (leBytes n x).reverse

/-- The unsigned integer whose object representation on host `e` is `bs`. -/
def wordOfBytes (e : Endian) (bs : List Nat) : Nat :=
  match e with
  | Endian.little => leValue bs
  | Endian.big => leValue bs.reverse

/-- Model of `memcpy(&buf[off], src, src.length)`. -/
def memcpy (buf : List Nat) (off : Nat) (src : List Nat) : List Nat :=
  buf.take off ++ src ++ buf.drop (off + src.length)

/-! ## `src/endian.c` -/

/-- Loop of `TO_BE16/32/64`:
`for (i = sizeof(out) - 1; i >= 0; --i, in >>= 8) pout[i] = in & 0xff;`
The first argument is `i + 1`, `w` is the width of `in` in bits. -/
def to_be_loop (w : Nat) : Nat → Nat → List Nat → List Nat
  | 0, _, pout => pout
  | i + 1, x, pout => to_be_loop w i ((x >>> 8) % 2 ^ w) (pout.set i (x &&& 0xff))

/-- Loop of `FROM_BE16/32/64`:
`for (i = 0, out = 0; i < sizeof(in); ++i) out = (out << 8) + pin[i];`
folded over the bytes `pin[0], pin[1], ...`; `w` is the width of `out`. -/
def from_be_loop (w : Nat) (pin : List Nat) : Nat :=
  pin.foldl (fun out b => ((out <<< 8) + b) % 2 ^ w) 0

/-- `uint16_t TO_BE16(uint16_t in)`. -/
def TO_BE16 (e : Endian) (x : Nat) : Nat :=
  wordOfBytes e (to_be_loop 16 2 x (bytesOfWord e 2 0))

/-- `uint16_t FROM_BE16(uint16_t in)`. -/
def FROM_BE16 (e : Endian) (x : Nat) : Nat :=
  from_be_loop 16 (bytesOfWord e 2 x)

/-- `uint32_t TO_BE32(uint32_t in)`. -/
def TO_BE32 (e : Endian) (x : Nat) : Nat :=
  wordOfBytes e (to_be_loop 32 4 x (bytesOfWord e 4 0))

/-- `uint32_t FROM_BE32(uint32_t in)`. -/
def FROM_BE32 (e : Endian) (x : Nat) : Nat :=
  from_be_loop 32 (bytesOfWord e 4 x)

/-- `uint64_t TO_BE64(uint64_t in)`. -/
def TO_BE64 (e : Endian) (x : Nat) : Nat :=
  wordOfBytes e (to_be_loop 64 8 x (bytesOfWord e 8 0))

/-- `uint64_t FROM_BE64(uint64_t in)`. -/
def FROM_BE64 (e : Endian) (x : Nat) : Nat :=
  from_be_loop 64 (bytesOfWord e 8 x)

/-! ## Model of `printf` with a `%0<width>x` conversion -/

/-- Lowercase hexadecimal digit. -/
def hexChar (d : Nat) : Char :=
  "0123456789abcdef".toList.getD d '0'

/-- Digits of `v` in base 16, most significant first, at least one digit;
the first argument bounds the number of digits. -/
def hexDigitsCore : Nat → Nat → List Char → List Char
  | 0, _, acc => acc
  | fuel + 1, v, acc =>
    if v / 16 = 0 then hexChar (v % 16) :: acc
    else hexDigitsCore fuel (v / 16) (hexChar (v % 16) :: acc)

/-- What `printf("%0<width>x", v)` writes: the hexadecimal digits of `v`,
lowercase, padded on the left with zeros to at least `width` characters. -/
def printf_0x (width v : Nat) : List Char :=
  let ds := hexDigitsCore (v + 1) v []
  List.replicate (width - ds.length) '0' ++ ds

/-! ## `src/methods/sha256.c` -/

/-- `BLOCK_SIZE`: size of input blocks in bytes. -/
def BLOCK_SIZE : Nat := 512 / 8

/-- `HASH_SIZE`: size of the output hash in bytes. -/
def HASH_SIZE : Nat := 256 / 8

/-- `HASH_SIZE_WORDS`. -/
def HASH_SIZE_WORDS : Nat := HASH_SIZE / 4

/-- `struct sha256_context`, with one ghost field.

`blocks` is not part of the C structure: it records, oldest first, every
block on which `sha256_update` ran the compression, so that theorems can
speak about what was handed to the compression step. No function reads it. -/
structure sha256_context where
  /-- current hash value, `uint32_t H[8]` -/
  H : List Nat
  /-- current input block, `uint8_t input[64]` -/
  input : List Nat
  /-- amount of data currently in the `input` buffer (bytes) -/
  input_length : Nat
  /-- total length of the input data seen so far (bytes), `uint64_t` -/
  length : Nat
  /-- ghost: blocks compressed so far -/
  blocks : List (List Nat)
  deriving DecidableEq, Repr

/-- The table of round constants: `K t` is `K[t]` for `t < 64`. -/
def K (t : Nat) : Nat :=
  match t with
  | 0 => 0x428a2f98
  | 1 => 0x71374491
  | 2 => 0xb5c0fbcf
  | 3 => 0xe9b5dba5
  | 4 => 0x3956c25b
  | 5 => 0x59f111f1
  | 6 => 0x923f82a4
  | 7 => 0xab1c5ed5
  | 8 => 0xd807aa98
  | 9 => 0x12835b01
  | 10 => 0x243185be
  | 11 => 0x550c7dc3
  | 12 => 0x72be5d74
  | 13 => 0x80deb1fe
  | 14 => 0x9bdc06a7
  | 15 => 0xc19bf174
  | 16 => 0xe49b69c1
  | 17 => 0xefbe4786
  | 18 => 0x0fc19dc6
  | 19 => 0x240ca1cc
  | 20 => 0x2de92c6f
  | 21 => 0x4a7484aa
  | 22 => 0x5cb0a9dc
  | 23 => 0x76f988da
  | 24 => 0x983e5152
  | 25 => 0xa831c66d
  | 26 => 0xb00327c8
  | 27 => 0xbf597fc7
  | 28 => 0xc6e00bf3
  | 29 => 0xd5a79147
  | 30 => 0x06ca6351
  | 31 => 0x14292967
  | 32 => 0x27b70a85
  | 33 => 0x2e1b2138
  | 34 => 0x4d2c6dfc
  | 35 => 0x53380d13
  | 36 => 0x650a7354
  | 37 => 0x766a0abb
  | 38 => 0x81c2c92e
  | 39 => 0x92722c85
  | 40 => 0xa2bfe8a1
  | 41 => 0xa81a664b
  | 42 => 0xc24b8b70
  | 43 => 0xc76c51a3
  | 44 => 0xd192e819
  | 45 => 0xd6990624
  | 46 => 0xf40e3585
  | 47 => 0x106aa070
  | 48 => 0x19a4c116
  | 49 => 0x1e376c08
  | 50 => 0x2748774c
  | 51 => 0x34b0bcb5
  | 52 => 0x391c0cb3
  | 53 => 0x4ed8aa4a
  | 54 => 0x5b9cca4f
  | 55 => 0x682e6ff3
  | 56 => 0x748f82ee
  | 57 => 0x78a5636f
  | 58 => 0x84c87814
  | 59 => 0x8cc70208
  | 60 => 0x90befffa
  | 61 => 0xa4506ceb
  | 62 => 0xbef9a3f7
  | 63 => 0xc67178f2
  | _ => 0

/-- `sha256_init`, on the path where `malloc` succeeds: the freshly zeroed
context with the initial hash value. -/
def sha256_init : sha256_context :=
  { H := [0x6a09e667, 0xbb67ae85, 0x3c6ef372, 0xa54ff53a,
          0x510e527f, 0x9b05688c, 0x1f83d9ab, 0x5be0cd19],
    input := List.replicate 64 0,
    input_length := 0,
    length := 0,
    blocks := [] }

/-- `Ch(x, y, z) = (x & y) ^ ((~x) & z)` on `uint32_t`. -/
def Ch (x y z : Nat) : Nat :=
  (x &&& y) ^^^ ((x ^^^ 0xffffffff) &&& z)

/-- `Maj(x, y, z) = (x & y) ^ (x & z) ^ (y & z)`. -/
def Maj (x y z : Nat) : Nat :=
  (x &&& y) ^^^ (x &&& z) ^^^ (y &&& z)

/-- `ROTR(value, places) = (value >> places) | (value << (32 - places))` on
`uint32_t`; every call site passes a constant `places` with
`0 < places < 32`, so the assertion in the C function holds. -/
def ROTR (value places : Nat) : Nat :=
  (value >>> places) ||| ((value <<< (32 - places)) % 2 ^ 32)

/-- Macro `sigma0`. -/
def sigma0 (x : Nat) : Nat := ROTR x 2 ^^^ ROTR x 13 ^^^ ROTR x 22

/-- Macro `sigma1`. -/
def sigma1 (x : Nat) : Nat := ROTR x 6 ^^^ ROTR x 11 ^^^ ROTR x 25

/-- Macro `gamma0`. -/
def gamma0 (x : Nat) : Nat := ROTR x 7 ^^^ ROTR x 18 ^^^ (x >>> 3)

/-- Macro `gamma1`. -/
def gamma1 (x : Nat) : Nat := ROTR x 17 ^^^ ROTR x 19 ^^^ (x >>> 10)

/-- First schedule loop of `sha256_update`: `W[t] = FROM_BE32(ptr[t])` for
`t < 16`, where `ptr[t]` is the host word stored in bytes `4t .. 4t+3` of the
input buffer. -/
def schedule_load (e : Endian) (input : List Nat) : List Nat :=
  (List.range 16).map fun t =>
    FROM_BE32 e (wordOfBytes e ((input.drop (4 * t)).take 4))

/-- Second schedule loop of `sha256_update`, `n` more iterations starting at
`t = W.length`:
`W[t] = gamma1(W[t-2]) + W[t-7] + gamma0(W[t-15]) + W[t-16]`. -/
def schedule_extend : Nat → List Nat → List Nat
  | 0, W => W
  | n + 1, W =>
    let t := W.length
    schedule_extend n
      (W ++ [(gamma1 (W.getD (t - 2) 0) + W.getD (t - 7) 0
              + gamma0 (W.getD (t - 15) 0) + W.getD (t - 16) 0) % 2 ^ 32])

/-- The working variables `a, b, c, d, e, f, g, h`. -/
structure working where
  a : Nat
  b : Nat
  c : Nat
  d : Nat
  e : Nat
  f : Nat
  g : Nat
  h : Nat
  deriving DecidableEq, Repr

/-- Body of the round loop of `sha256_update` for one `t`, given `K[t]` and
`W[t]`. -/
def round (v : working) (k w : Nat) : working :=
  let T1 := (v.h + sigma1 v.e + Ch v.e v.f v.g + k + w) % 2 ^ 32
  let T2 := (sigma0 v.a + Maj v.a v.b v.c) % 2 ^ 32
  { h := v.g, g := v.f, f := v.e, e := (v.d + T1) % 2 ^ 32,
    d := v.c, c := v.b, b := v.a, a := (T1 + T2) % 2 ^ 32 }

/-- The round loop of `sha256_update`, `t = 0 .. 63`. -/
def rounds (v : working) (W : List Nat) : working :=
  (List.range 64).foldl (fun v t => round v (K t) (W.getD t 0)) v

/-- The hash computation of `sha256_update` (everything between the length
check and the clean-up): the new value of `H`. -/
def compress (e : Endian) (H : List Nat) (input : List Nat) : List Nat :=
  let W := schedule_extend 48 (schedule_load e input)
  let v := rounds
    { a := H.getD 0 0, b := H.getD 1 0, c := H.getD 2 0, d := H.getD 3 0,
      e := H.getD 4 0, f := H.getD 5 0, g := H.getD 6 0, h := H.getD 7 0 } W
  [(H.getD 0 0 + v.a) % 2 ^ 32, (H.getD 1 0 + v.b) % 2 ^ 32,
   (H.getD 2 0 + v.c) % 2 ^ 32, (H.getD 3 0 + v.d) % 2 ^ 32,
   (H.getD 4 0 + v.e) % 2 ^ 32, (H.getD 5 0 + v.f) % 2 ^ 32,
   (H.getD 6 0 + v.g) % 2 ^ 32, (H.getD 7 0 + v.h) % 2 ^ 32]

/-- `sha256_update`: returns the `int` result and the context afterwards.
Note the order of the last two assignments, as in the source:
`input_length = 0` comes first, so `length += input_length` adds zero. -/
def sha256_update (e : Endian) (ctx : sha256_context) : Nat × sha256_context :=
  if ctx.input_length ≠ BLOCK_SIZE then (1, ctx)
  else
    let ctx1 := { ctx with H := compress e ctx.H ctx.input,
                           blocks := ctx.blocks ++ [ctx.input] }
    let ctx2 := { ctx1 with input := List.replicate 64 0 }
    let ctx3 := { ctx2 with input_length := 0 }
    let ctx4 := { ctx3 with length := (ctx3.length + ctx3.input_length) % 2 ^ 64 }
    (0, ctx4)

/-- Loop of `sha256_process`; the first argument bounds the number of
iterations. `none` stands for "no defined result": the `memcpy` would write
outside `input` (only possible when `input_length > 64` on entry), or the
bound was too small (excluded by `sha256_process_loop_fuel`). Otherwise the
`int` result and the context afterwards. -/
def sha256_process_loop (e : Endian) :
    Nat → sha256_context → List Nat → Option (Nat × sha256_context)
  | _, ctx, [] => some (0, ctx)
  | 0, _, _ :: _ => none
  | fuel + 1, ctx, b :: bs =>
    let data := b :: bs
    if BLOCK_SIZE < ctx.input_length then none
    else
      let bytes_to_read :=
        if data.length < BLOCK_SIZE - ctx.input_length then data.length
        else BLOCK_SIZE - ctx.input_length
      let ctx1 := { ctx with
        input := memcpy ctx.input ctx.input_length (data.take bytes_to_read) }
      let ctx2 := { ctx1 with input_length := ctx1.input_length + bytes_to_read }
      if ctx2.input_length = BLOCK_SIZE then
        match sha256_update e ctx2 with
        | (0, ctx3) => sha256_process_loop e fuel ctx3 (data.drop bytes_to_read)
        | (_, ctx3) => some (1, ctx3)
      else sha256_process_loop e fuel ctx2 (data.drop bytes_to_read)

/-- `sha256_process(ctx, data, len)`. Every iteration but possibly the first
consumes at least one byte, so `len + 1` iterations are enough. -/
def sha256_process (e : Endian) (ctx : sha256_context) (data : List Nat) :
    Option (Nat × sha256_context) :=
  sha256_process_loop e (data.length + 1) ctx data

/-- The part of `sha256_finish` after the assertion and before the last
`sha256_update`: appends the `0x80` marker, runs `sha256_update` on the current
block when `input_length >= 56`, then stores the length trailer. Returns the
`int` result so far (non-zero when the first `sha256_update` failed) and the
context that is handed to the last `sha256_update`. -/
def sha256_finish_pad (e : Endian) (ctx : sha256_context) : Nat × sha256_context :=
  let ctx1 := { ctx with input := ctx.input.set ctx.input_length 0x80 }
  let ctx2 := { ctx1 with input_length := ctx1.input_length + 1 }
  let r :=
    if BLOCK_SIZE - 8 ≤ ctx2.input_length then
      sha256_update e { ctx2 with input_length := BLOCK_SIZE }
    else (0, ctx2)
  match r with
  | (0, ctx3) =>
    let ctx4 := { ctx3 with length := (ctx3.length + ctx3.input_length) % 2 ^ 64 }
    let ctx5 := { ctx4 with length := (ctx4.length + 2 ^ 64 - 1) % 2 ^ 64 }
    let len_bits := TO_BE64 e ((ctx5.length * 8) % 2 ^ 64)
    let ctx6 := { ctx5 with
      input := memcpy ctx5.input (BLOCK_SIZE - 8) (bytesOfWord e 8 len_bits) }
    (0, { ctx6 with input_length := BLOCK_SIZE })
  | (_, ctx3) => (1, ctx3)

/-- The `Display hash` part of `sha256_finish`. -/
def sha256_display (H : List Nat) : List Char :=
  ['0', 'x']
    ++ ((List.range HASH_SIZE_WORDS).map fun i => printf_0x 8 (H.getD i 0)).flatten
    ++ ['\n']

/-- `sha256_finish`. `none`: the assertion `input_length < BLOCK_SIZE` fails
and the program is aborted. Otherwise the `int` result, the context as it is
just before it is freed, and what was written to standard output. -/
def sha256_finish (e : Endian) (ctx : sha256_context) :
    Option (Nat × sha256_context × List Char) :=
  if ¬ ctx.input_length < BLOCK_SIZE then none
  else
    match sha256_finish_pad e ctx with
    | (0, ctx1) =>
      match sha256_update e ctx1 with
      | (0, ctx2) => some (0, ctx2, sha256_display ctx2.H)
      | (_, ctx2) => some (1, ctx2, [])
    | (_, ctx1) => some (1, ctx1, [])

/-- Successive `sha256_process` calls, one per chunk, in order; stops at the
first call that does not return 0, as the driver does. -/
def sha256_process_chunks (e : Endian) :
    sha256_context → List (List Nat) → Option (Nat × sha256_context)
  | ctx, [] => some (0, ctx)
  | ctx, c :: cs =>
    match sha256_process e ctx c with
    | some (0, ctx1) => sha256_process_chunks e ctx1 cs
    | r => r

/-- The call sequence `sha256_init; sha256_process(C1); ...;
sha256_process(Cn); sha256_finish`: the result of the last call made and the
standard output. -/
def sha256_run (e : Endian) (chunks : List (List Nat)) : Option (Nat × List Char) :=
  match sha256_process_chunks e sha256_init chunks with
  | some (0, ctx) =>
    match sha256_finish e ctx with
    | some (r, _, out) => some (r, out)
    | none => none
  | some (r, _) => some (r, [])
  | none => none

/-! ## `src/method.h` and `src/methods/sum.c` -/

/-- `enum sum_type`. -/
inductive sum_type where
  | SIMPLE8
  | SIMPLE16
  | SIMPLE32
  | SIMPLE64
  | CRC16
  | CRC32
  | MD5
  | SHA1
  | SHA256
  deriving DecidableEq, Repr

/-- `struct simple_context`. -/
structure simple_context where
  /-- the running total, `uint64_t` -/
  sum : Nat
  deriving DecidableEq, Repr

/-- `simple_init`, on the path where `malloc` succeeds. -/
def simple_init : simple_context := { sum := 0 }

/-- `simple_process`: `context->sum += *ptr` for every byte; returns 0. -/
def simple_process (ctx : simple_context) (data : List Nat) : Nat × simple_context :=
  (0, { ctx with sum := data.foldl (fun sum b => (sum + b) % 2 ^ 64) ctx.sum })

/-- `simple_finish`: the `int` result and what was written to standard
output; `which` is the tag of the enclosing `struct context`. -/
def simple_finish (which : sum_type) (ctx : simple_context) : Nat × List Char :=
  match which with
  | sum_type.SIMPLE8 =>
    (0, ['0', 'x'] ++ printf_0x 2 ((ctx.sum &&& 0xff) % 2 ^ 8) ++ ['\n'])
  | sum_type.SIMPLE16 =>
    (0, ['0', 'x'] ++ printf_0x 4 ((ctx.sum &&& 0xffff) % 2 ^ 16) ++ ['\n'])
  | sum_type.SIMPLE32 =>
    (0, ['0', 'x'] ++ printf_0x 8 ((ctx.sum &&& 0xffffffff) % 2 ^ 32) ++ ['\n'])
  | sum_type.SIMPLE64 =>
    (0, ['0', 'x'] ++ printf_0x 16 ctx.sum ++ ['\n'])
  | _ => (1, [])

/-- Successive `simple_process` calls, one per chunk, in order. -/
def simple_process_chunks : simple_context → List (List Nat) → Nat × simple_context
  | ctx, [] => (0, ctx)
  | ctx, c :: cs =>
    match simple_process ctx c with
    | (0, ctx1) => simple_process_chunks ctx1 cs
    | r => r

/-- The call sequence `simple_init; simple_process(C1); ...;
simple_process(Cn); simple_finish` for the variant tagged `which`: the result
of the last call made and the standard output. -/
def simple_run (which : sum_type) (chunks : List (List Nat)) : Nat × List Char :=
  match simple_process_chunks simple_init chunks with
  | (0, ctx) => simple_finish which ctx
  | (r, _) => (r, [])

/-! ## Reference definitions: FIPS 180-4, SHA-256

Written from the standard, independently of the code above, to state what the
specification asks of the SHA-256 component. -/

namespace FIPS

/-- Rotate right on 32-bit words, FIPS 180-4 section 3.2:
`ROTR n x = (x >> n) or (x << 32 - n)`. -/
def ROTR (n x : Nat) : Nat := x / 2 ^ n + (x % 2 ^ n) * 2 ^ (32 - n)

/-- Right shift, FIPS 180-4 section 3.2. -/
def SHR (n x : Nat) : Nat := x / 2 ^ n

/-- Function `Ch`, equation (4.2). -/
def Ch (x y z : Nat) : Nat := (x &&& y) ^^^ ((2 ^ 32 - 1 - x) &&& z)

/-- Function `Maj`, equation (4.3). -/
def Maj (x y z : Nat) : Nat := (x &&& y) ^^^ (x &&& z) ^^^ (y &&& z)

/-- Upper-case sigma 0, equation (4.4). -/
def Sigma0 (x : Nat) : Nat := ROTR 2 x ^^^ ROTR 13 x ^^^ ROTR 22 x

/-- Upper-case sigma 1, equation (4.5). -/
def Sigma1 (x : Nat) : Nat := ROTR 6 x ^^^ ROTR 11 x ^^^ ROTR 25 x

/-- Lower-case sigma 0, equation (4.6). -/
def sigma0 (x : Nat) : Nat := ROTR 7 x ^^^ ROTR 18 x ^^^ SHR 3 x

/-- Lower-case sigma 1, equation (4.7). -/
def sigma1 (x : Nat) : Nat := ROTR 17 x ^^^ ROTR 19 x ^^^ SHR 10 x

/-- The first sixty-four prime numbers. -/
def primes : List Nat :=
  [2, 3, 5, 7, 11, 13, 17, 19, 23, 29, 31, 37, 41, 43, 47, 53,
   59, 61, 67, 71, 73, 79, 83, 89, 97, 101, 103, 107, 109, 113, 127, 131,
   137, 139, 149, 151, 157, 163, 167, 173, 179, 181, 191, 193, 197, 199, 211, 223,
   227, 229, 233, 239, 241, 251, 257, 263, 269, 271, 277, 281, 283, 293, 307, 311]

/-- The largest `r` below `2 ^ bits` with `r ^ k <= n`, added to `r0`, found
one bit at a time from the top: the integer `k`-th root of `n` when `r0 = 0`
and `bits` is large enough. -/
def iroot (k : Nat) : Nat → Nat → Nat → Nat
  | 0, _, r0 => r0
  | i + 1, n, r0 => iroot k i n (if (r0 + 2 ^ i) ^ k ≤ n then r0 + 2 ^ i else r0)

/-- SHA-256 constants, section 4.2.2: the first thirty-two bits of the
fractional parts of the cube roots of the first sixty-four prime numbers. -/
def K : List Nat :=
  primes.map fun p => iroot 3 40 (p * 2 ^ 96) 0 % 2 ^ 32

/-- Initial hash value, section 5.3.3: the first thirty-two bits of the
fractional parts of the square roots of the first eight prime numbers. -/
def H0 : List Nat :=
  (primes.take 8).map fun p => iroot 2 40 (p * 2 ^ 64) 0 % 2 ^ 32

/-- The `n`-byte big-endian encoding of `x` (of `x mod 256 ^ n`). -/
def be_bytes : Nat → Nat → List Nat
  | 0, _ => []
  | n + 1, x => (x / 256 ^ n) % 256 :: be_bytes n x

/-- The number encoded big-endian by a byte list. -/
def be_value (bs : List Nat) : Nat :=
  bs.foldl (fun acc b => acc * 256 + b) 0

/-- Padding, section 5.1.1, on whole bytes: the message, the byte `0x80`, the
least number of zero bytes that brings the length to 56 modulo 64, and the
message length in bits as a 64-bit big-endian integer. -/
def pad (M : List Nat) : List Nat :=
  M ++ [0x80] ++ List.replicate ((119 - M.length % 64) % 64) 0
    ++ be_bytes 8 ((8 * M.length) % 2 ^ 64)

/-- Parsing, section 5.2.1: the `i`-th 64-byte block of the padded message. -/
def block (bytes : List Nat) (i : Nat) : List Nat :=
  (bytes.drop (64 * i)).take 64

/-- The sixteen 32-bit big-endian words `M_0 .. M_15` of a block. -/
def block_words (blk : List Nat) : List Nat :=
  (List.range 16).map fun t => be_value ((blk.drop (4 * t)).take 4)

/-- Message schedule, section 6.2.2 step 1, extended by `n` words:
`W_t = sigma1(W_(t-2)) + W_(t-7) + sigma0(W_(t-15)) + W_(t-16)`. -/
def schedule : Nat → List Nat → List Nat
  | 0, W => W
  | n + 1, W =>
    let t := W.length
    schedule n (W ++ [(sigma1 (W.getD (t - 2) 0) + W.getD (t - 7) 0
      + sigma0 (W.getD (t - 15) 0) + W.getD (t - 16) 0) % 2 ^ 32])

/-- One iteration of section 6.2.2 step 3 on the working variables
`[a, b, c, d, e, f, g, h]`. -/
def step (Kt Wt : Nat) : List Nat → List Nat
  | [a, b, c, d, e, f, g, h] =>
    let T1 := (h + Sigma1 e + Ch e f g + Kt + Wt) % 2 ^ 32
    let T2 := (Sigma0 a + Maj a b c) % 2 ^ 32
    [(T1 + T2) % 2 ^ 32, a, b, c, (d + T1) % 2 ^ 32, e, f, g]
  | v => v

/-- Section 6.2.2 steps 1 to 4 for one block: the next hash value. -/
def compress (H : List Nat) (blk : List Nat) : List Nat :=
  let W := schedule 48 (block_words blk)
  let v := (List.range 64).foldl (fun v t => step (K.getD t 0) (W.getD t 0) v) H
  List.zipWith (fun x y => (x + y) % 2 ^ 32) v H

/-- SHA-256, section 6.2: the final hash value `H_0 .. H_7` (eight words). -/
def sha256_words (M : List Nat) : List Nat :=
  let bytes := pad M
  (List.range (bytes.length / 64)).foldl (fun H i => compress H (block bytes i)) H0

/-- The 256-bit message digest `H_0 || ... || H_7` as 32 bytes. -/
def sha256 (M : List Nat) : List Nat :=
  ((sha256_words M).map fun w => be_bytes 4 w).flatten

end FIPS

/-- Two lowercase hexadecimal digits per byte, most significant first. -/
def hex_of_bytes (bs : List Nat) : List Char :=
  (bs.map fun b => [hexChar (b / 16 % 16), hexChar (b % 16)]).flatten

/-! ## Auxiliary definitions used by the proofs -/

/-- Exactly `k` hexadecimal digits of `v` (of `v mod 16 ^ k`), most significant
first. -/
def hexFixed : Nat → Nat → List Char
  | 0, _ => []
  | k + 1, v => hexFixed k (v / 16) ++ [hexChar (v % 16)]

/-- Effect of submitting one byte to SHA-256: store it at `input_length`, and
compress when the buffer becomes full. Used to characterise
`sha256_process`. -/
def sha256_push (e : Endian) (ctx : sha256_context) (b : Nat) : sha256_context :=
  let ctx1 := { ctx with input := ctx.input.set ctx.input_length b,
                         input_length := ctx.input_length + 1 }
  if ctx1.input_length = BLOCK_SIZE then (sha256_update e ctx1).2 else ctx1

/-- Well-formed SHA-256 context: a 64-byte buffer that is not full. -/
def sha256_wf (ctx : sha256_context) : Prop :=
  ctx.input.length = 64 ∧ ctx.input_length < 64

/-- Bytes 56..63 of the last block that `sha256_finish` hands to the
compression step in the call sequence `sha256_init; sha256_process(C1); ...;
sha256_process(Cn); sha256_finish`. -/
def sha256_trailer (e : Endian) (chunks : List (List Nat)) : Option (List Nat) :=
  match sha256_process_chunks e sha256_init chunks with
  | some (0, ctx) =>
    match sha256_finish e ctx with
    | some (0, ctx1, _) => ctx1.blocks.getLast?.map (List.drop 56)
    | _ => none
  | _ => none

/-- The 56-byte message of the two-block example of FIPS 180-4 (test vector
`abcdbcdecdefdefgefghfghighijhijkijkljklmklmnlmnomnopnopq`). -/
def fips_two_block_message : List Nat :=
  "abcdbcdecdefdefgefghfghighijhijkijkljklmklmnlmnomnopnopq".toList.map Char.toNat

/-! ## `src/method.h`: contexts and method descriptors -/

/-- What the member `void* context` of `struct context` points to. -/
inductive method_state where
  | simple (c : simple_context)
  | sha256 (c : sha256_context)
  deriving DecidableEq, Repr

/-- `struct context`: the tag `which` and the pointer `context`
(`none` is `NULL`). -/
structure context where
  which : sum_type
  context : Option method_state
  deriving DecidableEq, Repr

/-- `struct method_api`. The three function pointers are functions on
`struct context`; `sum_init` also receives whether its `malloc` succeeds.
`sum_process` and `sum_finish` give `none` where the C call has no defined
result. `help` is what the help function prints. -/
structure method_api where
  name : String
  args : String
  type : sum_type
  output_size : Nat
  chunk_size : Nat
  help : List Char
  sum_init : Bool → context → Nat × context
  sum_process : context → List Nat → Option (Nat × context)
  sum_finish : context → Option (Nat × context × List Char)

/-- `simple_init` as an entry point on `struct context`: on success the new
state is stored in `ctx->context`; when `malloc` fails the result is 1. -/
def simple_init_entry (malloc_ok : Bool) (ctx : context) : Nat × context :=
  if malloc_ok then (0, { ctx with context := some (method_state.simple simple_init) })
  else (1, ctx)

/-- `simple_process` as an entry point on `struct context`. -/
def simple_process_entry (ctx : context) (data : List Nat) : Option (Nat × context) :=
  match ctx.context with
  | some (method_state.simple c) =>
    match simple_process c data with
    | (r, c1) => some (r, { ctx with context := some (method_state.simple c1) })
  | _ => none

/-- `simple_finish` as an entry point on `struct context`: the state is
freed and `ctx->context` set to `NULL` whatever the result. -/
def simple_finish_entry (ctx : context) : Option (Nat × context × List Char) :=
  match ctx.context with
  | some (method_state.simple c) =>
    match simple_finish ctx.which c with
    | (r, out) => some (r, { ctx with context := none }, out)
  | _ => none

/-- `sha256_init` as an entry point on `struct context` (the driver never
passes `NULL` for `ctx`). -/
def sha256_init_entry (malloc_ok : Bool) (ctx : context) : Nat × context :=
  if malloc_ok then (0, { ctx with context := some (method_state.sha256 sha256_init) })
  else (1, ctx)

/-- `sha256_process` as an entry point on `struct context`. -/
def sha256_process_entry (e : Endian) (ctx : context) (data : List Nat) :
    Option (Nat × context) :=
  match ctx.context with
  | some (method_state.sha256 c) =>
    match sha256_process e c data with
    | some (r, c1) => some (r, { ctx with context := some (method_state.sha256 c1) })
    | none => none
  | _ => none

/-- `sha256_finish` as an entry point on `struct context`: the state is freed
and `ctx->context` set to `NULL` only on the path that returns 0. -/
def sha256_finish_entry (e : Endian) (ctx : context) :
    Option (Nat × context × List Char) :=
  match ctx.context with
  | some (method_state.sha256 c) =>
    match sha256_finish e c with
    | some (0, _, out) => some (0, { ctx with context := none }, out)
    | some (r, c1, out) => some (r, { ctx with context := some (method_state.sha256 c1) }, out)
    | none => none
  | _ => none

/-- Descriptor `simple_8`. -/
def simple_8 : method_api :=
  { name := "8-bit sum", args := "-8", type := sum_type.SIMPLE8,
    output_size := 1, chunk_size := 0, help := "simple8_help - TBD\n".toList,
    sum_init := simple_init_entry, sum_process := simple_process_entry,
    sum_finish := simple_finish_entry }

/-- Descriptor `simple_16`. -/
def simple_16 : method_api :=
  { name := "16-bit sum", args := "-16", type := sum_type.SIMPLE16,
    output_size := 2, chunk_size := 0, help := "simple16_help - TBD\n".toList,
    sum_init := simple_init_entry, sum_process := simple_process_entry,
    sum_finish := simple_finish_entry }

/-- Descriptor `simple_32`. -/
def simple_32 : method_api :=
  { name := "32-bit sum", args := "-32", type := sum_type.SIMPLE32,
    output_size := 4, chunk_size := 0, help := "simple32_help - TBD\n".toList,
    sum_init := simple_init_entry, sum_process := simple_process_entry,
    sum_finish := simple_finish_entry }

/-- Descriptor `simple_64`. -/
def simple_64 : method_api :=
  { name := "64-bit sum", args := "-64", type := sum_type.SIMPLE64,
    output_size := 8, chunk_size := 0, help := "simple64_help - TBD\n".toList,
    sum_init := simple_init_entry, sum_process := simple_process_entry,
    sum_finish := simple_finish_entry }

/-- Descriptor `sha256`, for a host of byte order `e`. -/
def sha256 (e : Endian) : method_api :=
  { name := "SHA-256 hash", args := "-sha256", type := sum_type.SHA256,
    output_size := HASH_SIZE, chunk_size := 0, help := "sha256_help - TBD\n".toList,
    sum_init := sha256_init_entry, sum_process := sha256_process_entry e,
    sum_finish := sha256_finish_entry e }

/-! ## `src/checksum.c`: the driver -/

/-- An input stream (`FILE*` opened for reading): the bytes it delivers, and
whether a read error occurs after them instead of the end of file. -/
structure input_stream where
  data : List Nat
  fails : Bool
  deriving DecidableEq, Repr

/-- What the program receives from outside: the arguments `argv[0], argv[1],
...` (so `argc = argv.length`), whether the `k`-th call of `malloc` made by the
program succeeds (counted from 0), standard input, and what `fopen(path, "rb")`
gives (`none`: the file cannot be opened). -/
structure environment where
  argv : List String
  malloc_ok : Nat → Bool
  stdin : input_stream
  fopen : String → Option input_stream

/-- Outcome of `main`: the exit code, what was written to standard output,
and a ghost record `calls` of the results returned by the entry points
`sum_init`, `sum_process`, `sum_finish` that were called, in call order. -/
structure main_result where
  exit_code : Nat
  stdout : List Char
  calls : List Nat
  deriving DecidableEq, Repr

/-- `register_method`: appends the descriptor to the list; -1 when `malloc`
fails. -/
def register_method (malloc_ok : Bool) (list : List method_api) (api : method_api) :
    Int × List method_api :=
  if malloc_ok then (0, list ++ [api]) else (-1, list)

/-- `register_methods`, the macro `register_it` expanded: registers the five
descriptors in order and stops at the first failure. The mallocs are calls
0 to 4 of the program. -/
def register_methods (e : Endian) (malloc_ok : Nat → Bool) : Int × List method_api :=
  match register_method (malloc_ok 0) [] simple_8 with
  | (0, l1) =>
    match register_method (malloc_ok 1) l1 simple_16 with
    | (0, l2) =>
      match register_method (malloc_ok 2) l2 simple_32 with
      | (0, l3) =>
        match register_method (malloc_ok 3) l3 simple_64 with
        | (0, l4) =>
          match register_method (malloc_ok 4) l4 (sha256 e) with
          | (0, l5) => (0, l5)
          | r => r
        | r => r
      | r => r
    | r => r
  | r => r

/-- The conversion `%-10.10s` of `printf`: at most ten characters of the
string, padded on the right with blanks to ten characters. -/
def printf_s_10 (s : String) : List Char :=
  let cs := s.toList.take 10
  cs ++ List.replicate (10 - cs.length) ' '

/-- What `usage(stream)` writes to `stream`; its last line always goes to
standard error and is not part of it. -/
def usage (list : List method_api) : List Char :=
  "Usage: checksum [options] [method] file\n".toList
    ++ "Options:\n".toList
    ++ "  -h, --help   Display this information\n".toList
    ++ "\n".toList
    ++ "Methods:\n".toList
    ++ (list.map fun api =>
          "  ".toList ++ printf_s_10 api.args ++ "   ".toList ++ api.name.toList
            ++ "\n".toList).flatten

/-- The selection loop of `main`:
`for (ptr = list; ptr != NULL; ptr = ptr->next) if (strcmp(argv[1], ptr->api->args) == 0) ...`;
the value of `current_api` afterwards (`none` is `NULL`). -/
def select_method : List method_api → String → Option method_api
  | [], _ => none
  | api :: rest, arg => if arg = api.args then some api else select_method rest arg

/-- The read loop `while(1)` of `main`. `fread` delivers `buf_size` bytes
while that many are left; a shorter count ends the loop, with a read error
when the stream fails and with a last `sum_process` call otherwise. The first
argument bounds the number of iterations. Result: 0 when the loop is left by
`break`, 1 when `main` returns 1 from inside the loop; the context; the
results of the `sum_process` calls made. `none`: a call without defined
result, or the bound was too small. -/
def read_loop (api : method_api) (buf_size : Nat) :
    Nat → context → List Nat → Bool → List Nat → Option (Nat × context × List Nat)
  | 0, _, _, _, _ => none
  | fuel + 1, ctx, data, fails, calls =>
    let ret := if data.length < buf_size then data.length else buf_size
    if ret = buf_size then
      match api.sum_process ctx (data.take buf_size) with
      | none => none
      | some (0, ctx1) => read_loop api buf_size fuel ctx1 (data.drop buf_size) fails (calls ++ [0])
      | some (r, ctx1) => some (1, ctx1, calls ++ [r])
    else if fails then some (1, ctx, calls)
    else
      match api.sum_process ctx (data.take ret) with
      | none => none
      | some (0, ctx1) => some (0, ctx1, calls ++ [0])
      | some (r, ctx1) => some (1, ctx1, calls ++ [r])

/-- The part of `main` after the method is selected and the input is open:
`sum_init`, the buffer, the read loop and `sum_finish`. The `malloc` of
`sum_init` is call 5 of the program and that of the buffer call 6. -/
def checksum_stream (api : method_api) (malloc_ok : Nat → Bool) (input : input_stream) :
    Option main_result :=
  let ctx : context := { which := api.type, context := none }
  match api.sum_init (malloc_ok 5) ctx with
  | (0, ctx1) =>
    let buf_size := if api.chunk_size = 0 then 256 * 1024 else api.chunk_size
    if malloc_ok 6 then
      match read_loop api buf_size (input.data.length + 1) ctx1 input.data input.fails [0] with
      | none => none
      | some (0, ctx2, calls) =>
        match api.sum_finish ctx2 with
        | none => none
        | some (0, _, out) => some { exit_code := 0, stdout := out, calls := calls ++ [0] }
        | some (r, _, out) => some { exit_code := 1, stdout := out, calls := calls ++ [r] }
      | some (_, _, calls) => some { exit_code := 1, stdout := [], calls := calls }
    else some { exit_code := 1, stdout := [], calls := [0] }
  | (r, _) => some { exit_code := 1, stdout := [], calls := [r] }

/-- The part of `main` after `register_methods`, for the registered list
`list`: argument parsing, method selection, opening the input, and the
checksum itself. `none`: the run has no defined result. -/
def driver (list : List method_api) (env : environment) : Option main_result :=
  if env.argv.length ≤ 1 then some { exit_code := 1, stdout := [], calls := [] }
  else
    let arg1 := env.argv.getD 1 ""
    if arg1 = "-h" ∨ arg1 = "--help" then
      some { exit_code := 0, stdout := usage list, calls := [] }
    else
      match select_method list arg1 with
      | none => some { exit_code := 1, stdout := [], calls := [] }
      | some current_api =>
        if env.argv.length < 3 then some { exit_code := 1, stdout := [], calls := [] }
        else
          let arg2 := env.argv.getD 2 ""
          let input := if arg2 = "-" then some env.stdin else env.fopen arg2
          match input with
          | none => some { exit_code := 1, stdout := [], calls := [] }
          | some inp => checksum_stream current_api env.malloc_ok inp

/-- The function `main` on a host of byte order `e`. -/
def main (e : Endian) (env : environment) : Option main_result :=
  match register_methods e env.malloc_ok with
  | (0, list) => driver list env
  | _ => some { exit_code := 1, stdout := [], calls := [] }

/-- The call sequence the driver makes through a descriptor when every
`malloc` succeeds and the input arrives as the given chunks: `sum_init` on a
context tagged `api.type`, one `sum_process` per chunk (stopping at the first
non-zero result), `sum_finish`. Result of the last call made and the standard
output. -/
def api_process_chunks (api : method_api) : context → List (List Nat) → Option (Nat × context)
  | ctx, [] => some (0, ctx)
  | ctx, c :: cs =>
    match api.sum_process ctx c with
    | some (0, ctx1) => api_process_chunks api ctx1 cs
    | r => r

/-- The run `sum_init; sum_process(C1); ...; sum_process(Cn); sum_finish`
through the descriptor `api`, see `api_process_chunks`. -/
def api_run (api : method_api) (chunks : List (List Nat)) : Option (Nat × List Char) :=
  match api.sum_init true { which := api.type, context := none } with
  | (0, ctx) =>
    match api_process_chunks api ctx chunks with
    | some (0, ctx1) =>
      match api.sum_finish ctx1 with
      | some (r, _, out) => some (r, out)
      | none => none
    | some (r, _) => some (r, [])
    | none => none
  | (r, _) => some (r, [])

/-- The digits `0-9a-f`. -/
def hex_digits : List Char := "0123456789abcdef".toList

/-- The `i`-th consecutive 64-byte block of a message. -/
def message_block (M : List Nat) (i : Nat) : List Nat :=
  (M.drop (64 * i)).take 64

/-- The consecutive full 64-byte blocks of a message, in order. -/
def full_blocks (M : List Nat) : List (List Nat) :=
  (List.range (M.length / 64)).map (message_block M)

/-- Every element is below `n`. -/
def all_below (n : Nat) (xs : List Nat) : Prop := ∀ x ∈ xs, x < n


/-- The SHA-256 context after the bytes of `M` have been submitted to a fresh
context, in closed form: the hash value is the fold of `compress` over the
full blocks of `M`, the buffer holds the remaining tail followed by zeros, and
`length` is still 0. Proved equal to what the code computes in
`sha256_process_chunks_after`. -/
def sha256_after (e : Endian) (M : List Nat) : sha256_context :=
  { H := (full_blocks M).foldl (compress e) sha256_init.H,
    input := M.drop (64 * (M.length / 64)) ++ List.replicate (64 - M.length % 64) 0,
    input_length := M.length % 64,
    length := 0,
    blocks := full_blocks M }

/-- The blocks that `sha256_finish` hands to the compression step, in closed
form, when the buffer holds the `c = tail.length < 64` bytes `tail` followed by
zeros and `length` is 0: one block when `c <= 54`, two when `c >= 55`; the
last eight bytes are the big-endian encoding of `8 * c`, respectively of
`2 ^ 64 - 8`. Proved equal to what the code does in `sha256_finish_closed`. -/
def sha256_padding_blocks (tail : List Nat) : List (List Nat) :=
  if tail.length ≤ 54 then
    [tail ++ [0x80] ++ List.replicate (55 - tail.length) 0
      ++ (leBytes 8 (8 * tail.length)).reverse]
  else
    [tail ++ [0x80] ++ List.replicate (63 - tail.length) 0,
     List.replicate 56 0 ++ (leBytes 8 (2 ^ 64 - 8)).reverse]

/-- The working variables as the list `[a, b, c, d, e, f, g, h]`. -/
def working.toList (v : working) : List Nat :=
  [v.a, v.b, v.c, v.d, v.e, v.f, v.g, v.h]

/-! # Theorems -/

/-! ## SHA-256: constants -/

set_option maxRecDepth 1000000 in
/-- The table `K` of the code holds the sixty-four constants of FIPS 180-4. -/
theorem K_eq_FIPS : (List.range 64).map K = FIPS.K := by rfl

set_option maxRecDepth 1000000 in
/-- The hash value set by `sha256_init` is the initial hash value of FIPS 180-4. -/
theorem sha256_init_H_eq_FIPS : sha256_init.H = FIPS.H0 := by rfl

/-! ## SHA-256: streaming -/

theorem BLOCK_SIZE_eq : BLOCK_SIZE = 64 := rfl

theorem memcpy_cons (buf : List Nat) (off b : Nat) (bs : List Nat)
    (h : off < buf.length) :
    memcpy (buf.set off b) (off + 1) bs = memcpy buf off (b :: bs) := by
  induction buf generalizing off with
  | nil => simp at h
  | cons x xs ih =>
    cases off with
    | zero => simp [memcpy, Nat.add_comm 1]
    | succ n =>
      have h' : n < xs.length := by simpa using h
      have := ih n h'
      simp only [memcpy, List.length_cons] at this ⊢
      simp only [List.set_cons_succ, List.take_succ_cons, List.cons_append]
      have e1 : n + 1 + 1 + bs.length = (n + 1 + bs.length) + 1 := by omega
      have e2 : n + 1 + (bs.length + 1) = (n + (bs.length + 1)) + 1 := by omega
      rw [e1, e2, List.drop_succ_cons, List.drop_succ_cons, this]

theorem memcpy_nil (buf : List Nat) (off : Nat) : memcpy buf off [] = buf := by
  simp [memcpy]

theorem memcpy_length (buf : List Nat) (off : Nat) (src : List Nat)
    (h : off + src.length ≤ buf.length) : (memcpy buf off src).length = buf.length := by
  simp [memcpy]; omega

theorem sha256_update_full (e : Endian) (ctx : sha256_context)
    (h : ctx.input_length = 64) :
    sha256_update e ctx =
      (0, { H := compress e ctx.H ctx.input, input := List.replicate 64 0,
            input_length := 0, length := ctx.length % 2 ^ 64,
            blocks := ctx.blocks ++ [ctx.input] }) := by
  simp [sha256_update, BLOCK_SIZE_eq, h]

theorem sha256_update_wf (e : Endian) (ctx : sha256_context)
    (h : ctx.input_length = 64) : sha256_wf (sha256_update e ctx).2 := by
  rw [sha256_update_full e ctx h]
  simp [sha256_wf]

theorem sha256_push_wf (e : Endian) (ctx : sha256_context) (b : Nat)
    (h : sha256_wf ctx) : sha256_wf (sha256_push e ctx b) := by
  obtain ⟨h1, h2⟩ := h
  unfold sha256_push
  by_cases hc : ctx.input_length + 1 = 64
  · simp only [BLOCK_SIZE_eq, hc, if_true]
    exact sha256_update_wf e _ rfl
  · simp only [BLOCK_SIZE_eq, hc, if_false]
    refine ⟨by simp [h1], ?_⟩
    show ctx.input_length + 1 < 64
    omega

theorem sha256_foldl_push_wf (e : Endian) (data : List Nat) (ctx : sha256_context)
    (h : sha256_wf ctx) : sha256_wf (data.foldl (sha256_push e) ctx) := by
  induction data generalizing ctx with
  | nil => exact h
  | cons b bs ih => exact ih _ (sha256_push_wf e ctx b h)

/-- Bytes that do not fill the buffer are only copied. -/
theorem sha256_foldl_push_small (e : Endian) (data : List Nat) (ctx : sha256_context)
    (h : sha256_wf ctx) (hl : ctx.input_length + data.length < 64) :
    data.foldl (sha256_push e) ctx =
      { ctx with input := memcpy ctx.input ctx.input_length data,
                 input_length := ctx.input_length + data.length } := by
  induction data generalizing ctx with
  | nil => simp [memcpy_nil]
  | cons b bs ih =>
    obtain ⟨h1, h2⟩ := h
    simp only [List.length_cons] at hl
    have hne : ¬ ctx.input_length + 1 = 64 := by omega
    have hp : sha256_push e ctx b =
        { ctx with input := ctx.input.set ctx.input_length b,
                   input_length := ctx.input_length + 1 } := by
      simp [sha256_push, BLOCK_SIZE_eq, hne]
    rw [List.foldl_cons, hp, ih]
    · simp only [List.length_cons]
      rw [memcpy_cons _ _ _ _ (by omega)]
      congr 1; omega
    · exact ⟨by simp [h1], by show ctx.input_length + 1 < 64; omega⟩
    · show ctx.input_length + 1 + bs.length < 64; omega

/-- Bytes that exactly fill the buffer are copied and the block is compressed. -/
theorem sha256_foldl_push_fill (e : Endian) (data : List Nat) (ctx : sha256_context)
    (h : sha256_wf ctx) (hl : ctx.input_length + data.length = 64) :
    data.foldl (sha256_push e) ctx =
      (sha256_update e { ctx with input := memcpy ctx.input ctx.input_length data,
                                  input_length := 64 }).2 := by
  induction data generalizing ctx with
  | nil => obtain ⟨_, h2⟩ := h; simp at hl; omega
  | cons b bs ih =>
    obtain ⟨h1, h2⟩ := h
    simp only [List.length_cons] at hl
    rw [← memcpy_cons _ _ _ _ (by omega)]
    by_cases hb : bs = []
    · subst hb
      have hc : ctx.input_length + 1 = 64 := by simpa using hl
      simp [sha256_push, BLOCK_SIZE_eq, hc, memcpy_nil]
    · have hpos : 0 < bs.length := List.length_pos.mpr hb
      have hne : ¬ ctx.input_length + 1 = 64 := by omega
      have hp : sha256_push e ctx b =
          { ctx with input := ctx.input.set ctx.input_length b,
                     input_length := ctx.input_length + 1 } := by
        simp [sha256_push, BLOCK_SIZE_eq, hne]
      rw [List.foldl_cons, hp, ih]
      · exact ⟨by simp [h1], by show ctx.input_length + 1 < 64; omega⟩
      · show ctx.input_length + 1 + bs.length = 64; omega

/-- The loop of `sha256_process` on a well-formed context, with enough
iterations allowed, returns 0 and has the effect of submitting the bytes one
at a time. -/
theorem sha256_process_loop_fuel (e : Endian) (fuel : Nat) (ctx : sha256_context)
    (data : List Nat) (h : sha256_wf ctx) (hf : data.length < fuel) :
    sha256_process_loop e fuel ctx data = some (0, data.foldl (sha256_push e) ctx) := by
  induction fuel generalizing ctx data with
  | zero => omega
  | succ fuel ih =>
    cases data with
    | nil => simp [sha256_process_loop]
    | cons b bs =>
      obtain ⟨h1, h2⟩ := h
      have hnot : ¬ 64 < ctx.input_length := by omega
      simp only [sha256_process_loop, BLOCK_SIZE_eq, hnot, if_false]
      by_cases hs : (b :: bs).length < 64 - ctx.input_length
      · have hne : ¬ ctx.input_length + (b :: bs).length = 64 := by omega
        simp only [hs, if_true, hne, if_false, List.take_length, List.drop_length]
        rw [sha256_foldl_push_small e (b :: bs) ctx ⟨h1, h2⟩ (by omega)]
        simp [sha256_process_loop]
      · have hfull : ctx.input_length + (64 - ctx.input_length) = 64 := by omega
        simp only [hs, if_false, hfull, if_true]
        have hlen : (List.take (64 - ctx.input_length) (b :: bs)).length
            = 64 - ctx.input_length := by
          rw [List.length_take]; omega
        have hfill := sha256_foldl_push_fill e (List.take (64 - ctx.input_length) (b :: bs))
          ctx ⟨h1, h2⟩ (by omega)
        rw [sha256_update_full e _ rfl] at hfill ⊢
        simp only
        rw [ih]
        · conv_rhs => rw [← List.take_append_drop (64 - ctx.input_length) (b :: bs)]
          rw [List.foldl_append, hfill]
        · simp [sha256_wf]
        · rw [List.length_drop]
          simp only [List.length_cons] at hf ⊢
          omega

theorem sha256_process_eq (e : Endian) (ctx : sha256_context) (data : List Nat)
    (h : sha256_wf ctx) :
    sha256_process e ctx data = some (0, data.foldl (sha256_push e) ctx) :=
  sha256_process_loop_fuel e _ ctx data h (Nat.lt_succ_self _)

theorem sha256_process_chunks_eq (e : Endian) (chunks : List (List Nat))
    (ctx : sha256_context) (h : sha256_wf ctx) :
    sha256_process_chunks e ctx chunks
      = some (0, chunks.flatten.foldl (sha256_push e) ctx) := by
  induction chunks generalizing ctx with
  | nil => simp [sha256_process_chunks]
  | cons c cs ih =>
    simp only [sha256_process_chunks, sha256_process_eq e ctx c h, List.flatten_cons,
      List.foldl_append]
    exact ih _ (sha256_foldl_push_wf e c ctx h)

theorem sha256_init_wf : sha256_wf sha256_init := by
  simp [sha256_wf, sha256_init]


theorem sha256_finish_pad_wf (e : Endian) (ctx : sha256_context) (h : sha256_wf ctx) :
    ∃ ctx1, sha256_finish_pad e ctx = (0, ctx1) ∧ ctx1.input_length = 64 := by
  obtain ⟨_, h2⟩ := h
  unfold sha256_finish_pad
  by_cases hc : 64 - 8 ≤ ctx.input_length + 1
  · simp only [BLOCK_SIZE_eq, hc, if_true]
    rw [sha256_update_full e _ rfl]
    exact ⟨_, rfl, rfl⟩
  · simp only [BLOCK_SIZE_eq, hc, if_false]
    exact ⟨_, rfl, rfl⟩

theorem sha256_finish_wf (e : Endian) (ctx : sha256_context) (h : sha256_wf ctx) :
    ∃ ctx1, sha256_finish e ctx = some (0, ctx1, sha256_display ctx1.H) := by
  obtain ⟨c1, hp, hl⟩ := sha256_finish_pad_wf e ctx h
  have h2 : ctx.input_length < 64 := h.2
  unfold sha256_finish
  simp only [BLOCK_SIZE_eq, h2, not_true_eq_false, if_false, hp]
  rw [sha256_update_full e c1 hl]
  exact ⟨_, rfl⟩

theorem sha256_run_eq (e : Endian) (chunks : List (List Nat)) :
    sha256_run e chunks =
      (sha256_finish e (chunks.flatten.foldl (sha256_push e) sha256_init)).map
        fun r => (r.1, r.2.2) := by
  unfold sha256_run
  rw [sha256_process_chunks_eq e chunks _ sha256_init_wf]
  obtain ⟨c, hc⟩ := sha256_finish_wf e _ (sha256_foldl_push_wf e chunks.flatten _ sha256_init_wf)
  simp [hc]

/-- C1: SHA-256 chunk-boundary independence. For every list of chunks (any
number of them, each of any length, empty ones included) the call sequence
init, one process call per chunk, finish succeeds and prints the same digest as
init, one process call on the concatenation, finish; so does feeding the
concatenation one byte per process call. -/
theorem sha256_chunk_independence (e : Endian) (chunks : List (List Nat)) :
    sha256_run e chunks = sha256_run e [chunks.flatten]
    ∧ sha256_run e (chunks.flatten.map fun b => [b]) = sha256_run e [chunks.flatten]
    ∧ ∃ out, sha256_run e chunks = some (0, out) := by
  have hb : (chunks.flatten.map fun b => [b]).flatten = chunks.flatten := by
    induction chunks.flatten with
    | nil => rfl
    | cons x xs ih => simp [ih]
  refine ⟨?_, ?_, ?_⟩
  · rw [sha256_run_eq, sha256_run_eq]; simp
  · rw [sha256_run_eq, sha256_run_eq, hb]; simp
  · rw [sha256_run_eq]
    obtain ⟨c, hc⟩ := sha256_finish_wf e _
      (sha256_foldl_push_wf e chunks.flatten _ sha256_init_wf)
    exact ⟨_, by rw [hc]; rfl⟩

set_option maxRecDepth 1000000 in
/-- C3: empty input. On either host, `sha256_init` followed directly by
`sha256_finish` (no process call) returns 0 and prints `0x`, the 64 hex
characters `e3b0c442...7852b855` and a newline. -/
theorem sha256_empty_digest (e : Endian) :
    sha256_run e [] = some (0,
      "0xe3b0c44298fc1c149afbf4c8996fb92427ae41e4649b934ca495991b7852b855\n".toList) := by
  cases e <;> rfl

set_option maxRecDepth 1000000 in
/-- C4: on either host, `sha256_init`, `sha256_process` on the three bytes
`0x61 0x62 0x63` and `sha256_finish` return 0 and print the digest
`ba7816bf...f20015ad`. -/
theorem sha256_abc_digest (e : Endian) :
    sha256_run e [[0x61, 0x62, 0x63]] = some (0,
      "0xba7816bf8f01cfea414140de5dae2223b00361a396177a9cb410ff61f20015ad\n".toList) := by
  cases e <;> rfl

set_option maxRecDepth 1000000 in
/-- C2, the code evaluated at a failing input: for the 56-byte message of the
FIPS 180-4 two-block example, on either host, the call sequence init, process,
finish returns 0 and prints `c633cdbc...174edcfb`, while the FIPS 180-4 digest
of that message is `248d6a61...19db06c1`; the printed digest is not the FIPS
digest. -/
theorem sha256_two_block_message_digest (e : Endian) :
    sha256_run e [fips_two_block_message] = some (0,
      "0xc633cdbc1c56c32a04e2d32c2974d951c4fe2dff09e98437479085ae174edcfb\n".toList)
    ∧ hex_of_bytes (FIPS.sha256 fips_two_block_message)
      = "248d6a61d20638b8e5c026930c3e6039a33ce45964ff2167f6ecedd419db06c1".toList
    ∧ sha256_run e [fips_two_block_message]
      ≠ some (0, ['0', 'x'] ++ hex_of_bytes (FIPS.sha256 fips_two_block_message) ++ ['\n']) := by
  have hcode : sha256_run e [fips_two_block_message] = some (0,
      "0xc633cdbc1c56c32a04e2d32c2974d951c4fe2dff09e98437479085ae174edcfb\n".toList) := by
    cases e <;> rfl
  have hfips : hex_of_bytes (FIPS.sha256 fips_two_block_message)
      = "248d6a61d20638b8e5c026930c3e6039a33ce45964ff2167f6ecedd419db06c1".toList := rfl
  refine ⟨hcode, hfips, ?_⟩
  rw [hcode, hfips]
  decide

set_option maxRecDepth 1000000 in
/-- C5, the code evaluated at failing inputs: after 64 submitted bytes the
last block handed to the compression step by `sha256_finish` ends in eight
zero bytes, not in the big-endian encoding of 512; after 55 submitted bytes it
ends in `ff ff ff ff ff ff ff f8`, not in the encoding of 440. -/
theorem sha256_trailer_wrong (e : Endian) :
    sha256_trailer e [List.replicate 64 0] = some [0, 0, 0, 0, 0, 0, 0, 0]
    ∧ FIPS.be_bytes 8 ((8 * 64) % 2 ^ 64) = [0, 0, 0, 0, 0, 0, 2, 0]
    ∧ sha256_trailer e [List.replicate 55 0]
        = some [0xff, 0xff, 0xff, 0xff, 0xff, 0xff, 0xff, 0xf8]
    ∧ FIPS.be_bytes 8 ((8 * 55) % 2 ^ 64) = [0, 0, 0, 0, 0, 0, 1, 0xb8]
    ∧ sha256_trailer e [List.replicate 64 0] ≠ some (FIPS.be_bytes 8 ((8 * 64) % 2 ^ 64)) := by
  have h64 : sha256_trailer e [List.replicate 64 0] = some [0, 0, 0, 0, 0, 0, 0, 0] := by
    cases e <;> rfl
  have h55 : sha256_trailer e [List.replicate 55 0]
      = some [0xff, 0xff, 0xff, 0xff, 0xff, 0xff, 0xff, 0xf8] := by
    cases e <;> rfl
  refine ⟨h64, rfl, h55, rfl, ?_⟩
  rw [h64]
  decide

/-! ## Hexadecimal output and the simple sums -/

theorem hexFixed_length (k v : Nat) : (hexFixed k v).length = k := by
  induction k generalizing v with
  | zero => rfl
  | succ k ih => simp [hexFixed, ih]

theorem hexFixed_zero_pad (j k v : Nat) (h : v < 16 ^ k) :
    hexFixed (j + k) v = List.replicate j '0' ++ hexFixed k v := by
  induction k generalizing v with
  | zero =>
    have hv : v = 0 := by simpa using h
    subst hv
    induction j with
    | zero => rfl
    | succ j ih =>
      simp only [Nat.add_zero, hexFixed, List.append_nil] at ih ⊢
      rw [Nat.zero_div, ih, show hexChar (0 % 16) = '0' from rfl, ← List.replicate_succ']
  | succ k ih =>
    have hv : v / 16 < 16 ^ k := by
      rw [Nat.div_lt_iff_lt_mul (by decide)]
      rw [pow_succ] at h; exact h
    rw [← Nat.add_assoc, hexFixed, ih _ hv, hexFixed, List.append_assoc]

/-- The digit loop produces the shortest fixed-width rendering. -/
theorem hexDigitsCore_eq (fuel v : Nat) (acc : List Char) (h : v < fuel) :
    ∃ m, 1 ≤ m ∧ v < 16 ^ m ∧ (m = 1 ∨ 16 ^ (m - 1) ≤ v) ∧
      hexDigitsCore fuel v acc = hexFixed m v ++ acc := by
  induction fuel generalizing v acc with
  | zero => omega
  | succ fuel ih =>
    unfold hexDigitsCore
    by_cases hz : v / 16 = 0
    · refine ⟨1, le_refl _, ?_, Or.inl rfl, ?_⟩
      · have : v < 16 := by omega
        simpa using this
      · simp [hz, hexFixed]
    · have hlt : v / 16 < fuel := by omega
      obtain ⟨m, hm1, hm2, hm3, hm4⟩ := ih (v / 16) (hexChar (v % 16) :: acc) hlt
      refine ⟨m + 1, by omega, ?_, Or.inr ?_, ?_⟩
      · rw [pow_succ]; omega
      · simp only [Nat.add_sub_cancel]
        rcases hm3 with rfl | hm3
        · simp; omega
        · have : 16 ^ m = 16 ^ (m - 1) * 16 := by
            rw [← pow_succ]; congr 1; omega
          omega
      · simp [hz, hm4, hexFixed]

/-- `printf("%0<k>x", v)` writes exactly `k` digits when `v` fits in `k` digits. -/
theorem printf_0x_eq_hexFixed (k v : Nat) (hk : 1 ≤ k) (h : v < 16 ^ k) :
    printf_0x k v = hexFixed k v := by
  obtain ⟨m, hm1, hm2, hm3, hm4⟩ := hexDigitsCore_eq (v + 1) v [] (Nat.lt_succ_self v)
  have hmk : m ≤ k := by
    rcases hm3 with rfl | hm3
    · exact hk
    · by_contra hcon
      have : 16 ^ k ≤ 16 ^ (m - 1) := Nat.pow_le_pow_right (by decide) (by omega)
      omega
  unfold printf_0x
  simp only [hm4, List.append_nil, hexFixed_length]
  obtain ⟨j, rfl⟩ : ∃ j, k = j + m := ⟨k - m, by omega⟩
  rw [Nat.add_sub_cancel, hexFixed_zero_pad j m v hm2]

theorem simple_sum_foldl (data : List Nat) (s : Nat) :
    data.foldl (fun sum b => (sum + b) % 2 ^ 64) (s % 2 ^ 64) = (s + data.sum) % 2 ^ 64 := by
  induction data generalizing s with
  | nil => simp
  | cons b bs ih =>
    simp only [List.foldl_cons, List.sum_cons]
    rw [show (s % 2 ^ 64 + b) % 2 ^ 64 = (s + b) % 2 ^ 64 by omega, ih, Nat.add_assoc]

theorem simple_process_eq (ctx : simple_context) (data : List Nat) (h : ctx.sum < 2 ^ 64) :
    simple_process ctx data = (0, { sum := (ctx.sum + data.sum) % 2 ^ 64 }) := by
  unfold simple_process
  have := simple_sum_foldl data ctx.sum
  rw [Nat.mod_eq_of_lt h] at this
  rw [this]

theorem simple_process_chunks_eq (chunks : List (List Nat)) (ctx : simple_context)
    (h : ctx.sum < 2 ^ 64) :
    simple_process_chunks ctx chunks
      = (0, { sum := (ctx.sum + chunks.flatten.sum) % 2 ^ 64 }) := by
  induction chunks generalizing ctx with
  | nil =>
    cases ctx with
    | mk s => simp only [simple_process_chunks, List.flatten_nil, List.sum_nil, Nat.add_zero]
              rw [Nat.mod_eq_of_lt h]
  | cons c cs ih =>
    simp only [simple_process_chunks, simple_process_eq ctx c h, List.flatten_cons,
      List.sum_append]
    rw [ih _ (Nat.mod_lt _ (by decide))]
    simp only [Nat.add_assoc]
    congr 2
    omega

theorem simple_run_eq (which : sum_type) (chunks : List (List Nat)) :
    simple_run which chunks = simple_finish which { sum := chunks.flatten.sum % 2 ^ 64 } := by
  unfold simple_run
  rw [simple_process_chunks_eq chunks simple_init (by decide)]
  simp [simple_init]


theorem and_mask_eq_mod (x n : Nat) : x &&& (2 ^ n - 1) = x % 2 ^ n :=
  Nat.and_pow_two_sub_one_eq_mod x n

/-- C6: simple sum correctness. For each width 8, 16, 32, 64 and every byte
sequence fed in any chunking between `simple_init` and `simple_finish`, the
run returns 0 and prints `0x`, then the sum of all bytes modulo `2 ^ width` as
exactly `width / 4` lowercase hexadecimal digits, most significant first and
zero padded, then a newline. In particular the 8-bit sum of
`[0x01, 0x02, 0xFF, 0xFF]` is printed as `0x01`. -/
theorem simple_sum_correct (chunks : List (List Nat)) :
    simple_run sum_type.SIMPLE8 chunks
      = (0, ['0', 'x'] ++ hexFixed 2 (chunks.flatten.sum % 2 ^ 8) ++ ['\n'])
    ∧ simple_run sum_type.SIMPLE16 chunks
      = (0, ['0', 'x'] ++ hexFixed 4 (chunks.flatten.sum % 2 ^ 16) ++ ['\n'])
    ∧ simple_run sum_type.SIMPLE32 chunks
      = (0, ['0', 'x'] ++ hexFixed 8 (chunks.flatten.sum % 2 ^ 32) ++ ['\n'])
    ∧ simple_run sum_type.SIMPLE64 chunks
      = (0, ['0', 'x'] ++ hexFixed 16 (chunks.flatten.sum % 2 ^ 64) ++ ['\n'])
    ∧ simple_run sum_type.SIMPLE8 [[0x01, 0x02, 0xFF, 0xFF]] = (0, "0x01\n".toList) := by
  refine ⟨?_, ?_, ?_, ?_, by decide⟩
  · rw [simple_run_eq]
    simp only [simple_finish]
    rw [show (0xff : Nat) = 2 ^ 8 - 1 from rfl, and_mask_eq_mod, Nat.mod_mod,
      Nat.mod_mod_of_dvd _ (by decide : 2 ^ 8 ∣ 2 ^ 64),
      printf_0x_eq_hexFixed 2 _ (by decide)
        (lt_of_lt_of_le (Nat.mod_lt _ (by decide)) (by decide : 2 ^ 8 ≤ 16 ^ 2))]
  · rw [simple_run_eq]
    simp only [simple_finish]
    rw [show (0xffff : Nat) = 2 ^ 16 - 1 from rfl, and_mask_eq_mod, Nat.mod_mod,
      Nat.mod_mod_of_dvd _ (by decide : 2 ^ 16 ∣ 2 ^ 64),
      printf_0x_eq_hexFixed 4 _ (by decide)
        (lt_of_lt_of_le (Nat.mod_lt _ (by decide)) (by decide : 2 ^ 16 ≤ 16 ^ 4))]
  · rw [simple_run_eq]
    simp only [simple_finish]
    rw [show (0xffffffff : Nat) = 2 ^ 32 - 1 from rfl, and_mask_eq_mod, Nat.mod_mod,
      Nat.mod_mod_of_dvd _ (by decide : 2 ^ 32 ∣ 2 ^ 64),
      printf_0x_eq_hexFixed 8 _ (by decide)
        (lt_of_lt_of_le (Nat.mod_lt _ (by decide)) (by decide : 2 ^ 32 ≤ 16 ^ 8))]
  · rw [simple_run_eq]
    simp only [simple_finish]
    rw [printf_0x_eq_hexFixed 16 _ (by decide)
        (lt_of_lt_of_le (Nat.mod_lt _ (by decide)) (by decide : 2 ^ 64 ≤ 16 ^ 16))]

/-- C7: simple-sum chunk-boundary independence. For every variant tag and every
list of chunks (empty chunks and the empty list included), one process call
per chunk prints the same as one process call on the concatenation, and so
does feeding the concatenation one byte per call. -/
theorem simple_chunk_independence (which : sum_type) (chunks : List (List Nat)) :
    simple_run which chunks = simple_run which [chunks.flatten]
    ∧ simple_run which (chunks.flatten.map fun b => [b]) = simple_run which [chunks.flatten] := by
  have hb : (chunks.flatten.map fun b => [b]).flatten = chunks.flatten := by
    induction chunks.flatten with
    | nil => rfl
    | cons x xs ih => simp [ih]
  constructor
  · rw [simple_run_eq, simple_run_eq]; simp
  · rw [simple_run_eq, simple_run_eq, hb]; simp

/-- C8: the running sum wraps and never fails. For every context whose running
sum is a 64-bit value and every chunk, `simple_process` returns 0 and leaves
the running sum equal to the old sum plus the sum of the chunk's bytes, modulo
`2 ^ 64`. -/
theorem simple_process_wraps (ctx : simple_context) (data : List Nat)
    (h : ctx.sum < 2 ^ 64) :
    simple_process ctx data = (0, { sum := (ctx.sum + data.sum) % 2 ^ 64 }) :=
  simple_process_eq ctx data h

/-- Witness for C8, with a sum that overflows: `2 ^ 64 - 1` plus `0xFF + 0x02`. -/
theorem simple_process_wraps_witness :
    (2 ^ 64 - 1 < 2 ^ 64) ∧
    simple_process { sum := 2 ^ 64 - 1 } [0xFF, 0x02]
      = (0, { sum := (2 ^ 64 - 1 + [0xFF, 0x02].sum) % 2 ^ 64 }) :=
  ⟨by decide, simple_process_wraps { sum := 2 ^ 64 - 1 } [0xFF, 0x02] (by decide)⟩

/-! ## Byte order -/

theorem leBytes_length (n x : Nat) : (leBytes n x).length = n := by
  induction n generalizing x with
  | zero => rfl
  | succ n ih => simp [leBytes, ih]

theorem leBytes_all_bytes (n x : Nat) : ∀ b ∈ leBytes n x, b < 256 := by
  induction n generalizing x with
  | zero => simp [leBytes]
  | succ n ih =>
    intro b hb
    simp only [leBytes, List.mem_cons] at hb
    rcases hb with rfl | hb
    · exact Nat.mod_lt _ (by decide)
    · exact ih _ b hb

theorem leBytes_leValue (bs : List Nat) (h : ∀ b ∈ bs, b < 256) :
    leBytes bs.length (leValue bs) = bs := by
  induction bs with
  | nil => rfl
  | cons b bs ih =>
    have hb : b < 256 := h b (List.mem_cons_self _ _)
    have ih' := ih (fun c hc => h c (List.mem_cons_of_mem _ hc))
    simp only [List.length_cons, leBytes, leValue]
    rw [show (b + 256 * leValue bs) % 256 = b by omega,
      show (b + 256 * leValue bs) / 256 = leValue bs by omega, ih']

theorem leValue_leBytes (n x : Nat) : leValue (leBytes n x) = x % 256 ^ n := by
  induction n generalizing x with
  | zero => simp [leBytes, leValue, Nat.mod_one]
  | succ n ih =>
    simp only [leBytes, leValue, ih]
    rw [pow_succ, Nat.mul_comm (256 ^ n) 256, Nat.mod_mul]

/-- Storing a word and reading the bytes back gives the bytes. -/
theorem bytesOfWord_wordOfBytes (e : Endian) (bs : List Nat) (h : ∀ b ∈ bs, b < 256) :
    bytesOfWord e bs.length (wordOfBytes e bs) = bs := by
  cases e with
  | little => exact leBytes_leValue bs h
  | big =>
    simp only [bytesOfWord, wordOfBytes]
    have := leBytes_leValue bs.reverse (fun b hb => h b (List.mem_reverse.mp hb))
    rw [List.length_reverse] at this
    rw [this, List.reverse_reverse]

theorem drop_set_self (l : List Nat) (i v : Nat) (h : i < l.length) :
    (l.set i v).drop i = v :: l.drop (i + 1) := by
  induction l generalizing i with
  | nil => simp at h
  | cons x xs ih =>
    cases i with
    | zero => simp
    | succ i => simpa using ih i (by simpa using h)

theorem to_be_loop_eq (w i x : Nat) (pout : List Nat) (hi : i ≤ pout.length)
    (hx : x < 2 ^ w) :
    to_be_loop w i x pout = (leBytes i x).reverse ++ pout.drop i := by
  induction i generalizing x pout with
  | zero => simp [to_be_loop, leBytes]
  | succ i ih =>
    have hdiv : x / 256 < 2 ^ w := lt_of_le_of_lt (Nat.div_le_self _ _) hx
    have hs : (x >>> 8) % 2 ^ w = x / 256 := by
      rw [Nat.shiftRight_eq_div_pow, Nat.mod_eq_of_lt hdiv]
    have hm : x &&& 0xff = x % 256 := Nat.and_pow_two_sub_one_eq_mod x 8
    simp only [to_be_loop, hs, hm, leBytes, List.reverse_cons, List.append_assoc]
    rw [ih _ _ (by simp; omega) hdiv, drop_set_self _ _ _ (by omega)]
    rfl

theorem be_value_append (bs : List Nat) (b : Nat) :
    FIPS.be_value (bs ++ [b]) = FIPS.be_value bs * 256 + b := by
  simp [FIPS.be_value, List.foldl_append]

theorem be_value_reverse (bs : List Nat) : FIPS.be_value bs.reverse = leValue bs := by
  induction bs with
  | nil => rfl
  | cons b bs ih =>
    rw [List.reverse_cons, be_value_append, ih, leValue]; omega

theorem from_be_loop_foldl (w : Nat) (bs : List Nat) (a : Nat) :
    bs.foldl (fun out b => ((out <<< 8) + b) % 2 ^ w) (a % 2 ^ w)
      = (bs.foldl (fun acc b => acc * 256 + b) a) % 2 ^ w := by
  induction bs generalizing a with
  | nil => rfl
  | cons b bs ih =>
    simp only [List.foldl_cons]
    rw [← ih]
    congr 1
    rw [Nat.shiftLeft_eq, Nat.add_mod, Nat.mul_mod, Nat.mod_mod, ← Nat.mul_mod, ← Nat.add_mod]

theorem from_be_loop_eq (w : Nat) (bs : List Nat) :
    from_be_loop w bs = FIPS.be_value bs % 2 ^ w := by
  have := from_be_loop_foldl w bs 0
  rw [Nat.zero_mod] at this
  exact this

/-- The bytes written by the loop of `TO_BE*`: most significant first. -/
theorem to_be_bytes (e : Endian) (w n x : Nat) (hx : x < 2 ^ w) :
    to_be_loop w n x (bytesOfWord e n 0) = (leBytes n x).reverse := by
  have hl : (bytesOfWord e n 0).length = n := by
    cases e <;> simp [bytesOfWord, leBytes_length]
  rw [to_be_loop_eq w n x _ (by omega) hx, List.drop_of_length_le (by omega), List.append_nil]

/-- In-memory bytes of the result of `TO_BE*`. -/
theorem bytesOfWord_to_be (e : Endian) (w n x : Nat) (hx : x < 2 ^ w) :
    bytesOfWord e n (wordOfBytes e (to_be_loop w n x (bytesOfWord e n 0)))
      = (leBytes n x).reverse := by
  rw [to_be_bytes e w n x hx]
  have := bytesOfWord_wordOfBytes e (leBytes n x).reverse
    (fun b hb => leBytes_all_bytes n x b (List.mem_reverse.mp hb))
  rwa [List.length_reverse, leBytes_length] at this

/-- `FROM_BE*` undoes `TO_BE*` when the value fits in `n` bytes. -/
theorem from_be_to_be (e : Endian) (w n x : Nat) (hx : x < 2 ^ w) (hn : 256 ^ n = 2 ^ w) :
    from_be_loop w (bytesOfWord e n (wordOfBytes e (to_be_loop w n x (bytesOfWord e n 0))))
      = x := by
  rw [bytesOfWord_to_be e w n x hx, from_be_loop_eq, be_value_reverse, leValue_leBytes, hn,
    Nat.mod_mod, Nat.mod_eq_of_lt hx]

/-- C9: byte-order round trip. On either host, `FROM_BE16 (TO_BE16 x) = x` for
every 16-bit `x`, `FROM_BE32 (TO_BE32 x) = x` for every 32-bit `x`, and
`FROM_BE64 (TO_BE64 x) = x` for every 64-bit `x`. -/
theorem be_round_trip (e : Endian) :
    (∀ x, x < 2 ^ 16 → FROM_BE16 e (TO_BE16 e x) = x)
    ∧ (∀ x, x < 2 ^ 32 → FROM_BE32 e (TO_BE32 e x) = x)
    ∧ (∀ x, x < 2 ^ 64 → FROM_BE64 e (TO_BE64 e x) = x) :=
  ⟨fun x hx => from_be_to_be e 16 2 x hx (by decide),
   fun x hx => from_be_to_be e 32 4 x hx (by decide),
   fun x hx => from_be_to_be e 64 8 x hx (by decide)⟩

/-- Witness for C9 at the boundary values: the maximum 16-bit value, zero, and
the maximum 64-bit value. -/
theorem be_round_trip_witness :
    FROM_BE16 Endian.little (TO_BE16 Endian.little 0xffff) = 0xffff
    ∧ FROM_BE32 Endian.big (TO_BE32 Endian.big 0) = 0
    ∧ FROM_BE64 Endian.little (TO_BE64 Endian.little 0xffffffffffffffff)
        = 0xffffffffffffffff :=
  ⟨(be_round_trip Endian.little).1 0xffff (by decide),
   (be_round_trip Endian.big).2.1 0 (by decide),
   (be_round_trip Endian.little).2.2 0xffffffffffffffff (by decide)⟩


theorem from_be_wordOfBytes (e : Endian) (w n : Nat) (bs : List Nat) (hl : bs.length = n)
    (h : ∀ b ∈ bs, b < 256) :
    from_be_loop w (bytesOfWord e n (wordOfBytes e bs)) = FIPS.be_value bs % 2 ^ w := by
  subst hl
  rw [bytesOfWord_wordOfBytes e bs h, from_be_loop_eq]

/-- C10: host-order independence of the byte-order utility. On either host and
for each width, the in-memory bytes of `TO_BE_W x`, read from the lowest
address, are the bytes of `x` from most to least significant, and `FROM_BE_W`
applied to the word whose in-memory bytes are `b0, b1, ...` returns
`b0 * 256 ^ (W/8 - 1) + ... + b(W/8 - 1)`; the right-hand sides do not mention
the host. -/
theorem be_host_independent (e : Endian) :
    (∀ x, x < 2 ^ 16 → bytesOfWord e 2 (TO_BE16 e x) = [x / 256 % 256, x % 256])
    ∧ (∀ x, x < 2 ^ 32 → bytesOfWord e 4 (TO_BE32 e x)
        = [x / 256 ^ 3 % 256, x / 256 ^ 2 % 256, x / 256 % 256, x % 256])
    ∧ (∀ x, x < 2 ^ 64 → bytesOfWord e 8 (TO_BE64 e x)
        = [x / 256 ^ 7 % 256, x / 256 ^ 6 % 256, x / 256 ^ 5 % 256, x / 256 ^ 4 % 256,
           x / 256 ^ 3 % 256, x / 256 ^ 2 % 256, x / 256 % 256, x % 256])
    ∧ (∀ b0 b1, b0 < 256 → b1 < 256 →
        FROM_BE16 e (wordOfBytes e [b0, b1]) = b0 * 256 + b1)
    ∧ (∀ b0 b1 b2 b3, b0 < 256 → b1 < 256 → b2 < 256 → b3 < 256 →
        FROM_BE32 e (wordOfBytes e [b0, b1, b2, b3])
          = b0 * 256 ^ 3 + b1 * 256 ^ 2 + b2 * 256 + b3)
    ∧ (∀ b0 b1 b2 b3 b4 b5 b6 b7, b0 < 256 → b1 < 256 → b2 < 256 → b3 < 256 →
        b4 < 256 → b5 < 256 → b6 < 256 → b7 < 256 →
        FROM_BE64 e (wordOfBytes e [b0, b1, b2, b3, b4, b5, b6, b7])
          = b0 * 256 ^ 7 + b1 * 256 ^ 6 + b2 * 256 ^ 5 + b3 * 256 ^ 4
            + b4 * 256 ^ 3 + b5 * 256 ^ 2 + b6 * 256 + b7) := by
  refine ⟨?_, ?_, ?_, ?_, ?_, ?_⟩
  · intro x hx
    rw [TO_BE16, bytesOfWord_to_be e 16 2 x hx]
    simp [leBytes]
  · intro x hx
    rw [TO_BE32, bytesOfWord_to_be e 32 4 x hx]
    simp [leBytes, Nat.div_div_eq_div_mul]
  · intro x hx
    rw [TO_BE64, bytesOfWord_to_be e 64 8 x hx]
    simp [leBytes, Nat.div_div_eq_div_mul]
  · intro b0 b1 h0 h1
    rw [FROM_BE16, from_be_wordOfBytes e 16 2 [b0, b1] rfl (by simp; omega)]
    simp only [FIPS.be_value, List.foldl_cons, List.foldl_nil]
    omega
  · intro b0 b1 b2 b3 h0 h1 h2 h3
    rw [FROM_BE32, from_be_wordOfBytes e 32 4 [b0, b1, b2, b3] rfl (by simp; omega)]
    simp only [FIPS.be_value, List.foldl_cons, List.foldl_nil]
    omega
  · intro b0 b1 b2 b3 b4 b5 b6 b7 h0 h1 h2 h3 h4 h5 h6 h7
    rw [FROM_BE64, from_be_wordOfBytes e 64 8 [b0, b1, b2, b3, b4, b5, b6, b7] rfl
      (by simp; omega)]
    simp only [FIPS.be_value, List.foldl_cons, List.foldl_nil]
    omega

/-- Witness for C10: `TO_BE32` on a little-endian host and `FROM_BE16` on a
big-endian host. -/
theorem be_host_independent_witness :
    bytesOfWord Endian.little 4 (TO_BE32 Endian.little 0x01020304) =
      [0x01020304 / 256 ^ 3 % 256, 0x01020304 / 256 ^ 2 % 256, 0x01020304 / 256 % 256,
       0x01020304 % 256]
    ∧ FROM_BE16 Endian.big (wordOfBytes Endian.big [0x12, 0x34]) = 0x12 * 256 + 0x34 :=
  ⟨(be_host_independent Endian.little).2.1 0x01020304 (by decide),
   (be_host_independent Endian.big).2.2.2.1 0x12 0x34 (by decide) (by decide)⟩

/-! ## SHA-256: the state after a message -/

theorem set_append_length (t : List Nat) (x b : Nat) (xs : List Nat) :
    (t ++ x :: xs).set t.length b = t ++ b :: xs := by
  induction t with
  | nil => rfl
  | cons y ys ih => simp [ih]

theorem message_block_append (M : List Nat) (b : Nat) (i : Nat) (h : 64 * i + 64 ≤ M.length) :
    message_block (M ++ [b]) i = message_block M i := by
  unfold message_block
  rw [List.drop_append_of_le_length (by omega), List.take_append_of_le_length]
  rw [List.length_drop]; omega

theorem full_blocks_append_same (M : List Nat) (b : Nat) (h : M.length % 64 + 1 < 64) :
    full_blocks (M ++ [b]) = full_blocks M := by
  unfold full_blocks
  have hq : (M ++ [b]).length / 64 = M.length / 64 := by
    simp only [List.length_append, List.length_singleton]; omega
  rw [hq]
  apply List.map_congr_left
  intro i hi
  rw [List.mem_range] at hi
  exact message_block_append M b i (by omega)

theorem full_blocks_append_new (M : List Nat) (b : Nat) (h : M.length % 64 + 1 = 64) :
    full_blocks (M ++ [b])
      = full_blocks M ++ [M.drop (64 * (M.length / 64)) ++ [b]] := by
  unfold full_blocks
  have hq : (M ++ [b]).length / 64 = M.length / 64 + 1 := by
    simp only [List.length_append, List.length_singleton]; omega
  rw [hq, List.range_succ, List.map_append, List.map_singleton]
  congr 1
  · apply List.map_congr_left
    intro i hi
    rw [List.mem_range] at hi
    exact message_block_append M b i (by omega)
  · unfold message_block
    rw [List.drop_append_of_le_length (by omega)]
    rw [List.take_of_length_le]
    simp only [List.length_append, List.length_drop, List.length_singleton]; omega

theorem sha256_after_nil (e : Endian) : sha256_after e [] = sha256_init := by
  rfl

theorem sha256_push_after (e : Endian) (M : List Nat) (b : Nat) :
    sha256_push e (sha256_after e M) b = sha256_after e (M ++ [b]) := by
  have hr : M.length % 64 < 64 := Nat.mod_lt _ (by decide)
  have htl : (M.drop (64 * (M.length / 64))).length = M.length % 64 := by
    rw [List.length_drop]; omega
  have hrep : List.replicate (64 - M.length % 64) 0
      = (0 : Nat) :: List.replicate (63 - M.length % 64) 0 := by
    rw [show 64 - M.length % 64 = (63 - M.length % 64) + 1 by omega, List.replicate_succ]
  have hset : (M.drop (64 * (M.length / 64)) ++ List.replicate (64 - M.length % 64) 0).set
      (M.length % 64) b
      = M.drop (64 * (M.length / 64)) ++ b :: List.replicate (63 - M.length % 64) 0 := by
    rw [hrep]
    have := set_append_length (M.drop (64 * (M.length / 64))) 0 b
      (List.replicate (63 - M.length % 64) 0)
    rwa [htl] at this
  unfold sha256_push
  simp only [sha256_after, BLOCK_SIZE]
  rw [hset]
  by_cases hc : M.length % 64 + 1 = 64
  · have h63 : 63 - M.length % 64 = 0 := by omega
    simp only [hc, if_true, h63, List.replicate_zero]
    rw [sha256_update_full e _ rfl]
    simp only [Nat.zero_mod]
    have hq : (M ++ [b]).length / 64 = M.length / 64 + 1 := by
      simp only [List.length_append, List.length_singleton]; omega
    have hm : (M ++ [b]).length % 64 = 0 := by
      simp only [List.length_append, List.length_singleton]; omega
    rw [full_blocks_append_new M b hc, List.foldl_append, hq, hm]
    have hdrop : List.drop (64 * (M.length / 64 + 1)) (M ++ [b]) = [] := by
      apply List.drop_of_length_le
      simp only [List.length_append, List.length_singleton]; omega
    rw [hdrop]
    simp
  · have hlt : M.length % 64 + 1 < 64 := by omega
    have hne : ¬ (M.length % 64 + 1 = 512 / 8) := by omega
    simp only [hne, if_false]
    have hq : (M ++ [b]).length / 64 = M.length / 64 := by
      simp only [List.length_append, List.length_singleton]; omega
    have hm : (M ++ [b]).length % 64 = M.length % 64 + 1 := by
      simp only [List.length_append, List.length_singleton]; omega
    rw [full_blocks_append_same M b hlt, hq, hm, List.drop_append_of_le_length (by omega)]
    have : 64 - (M.length % 64 + 1) = 63 - M.length % 64 := by omega
    rw [this]
    simp

theorem sha256_foldl_push_after (e : Endian) (M data : List Nat) :
    data.foldl (sha256_push e) (sha256_after e M) = sha256_after e (M ++ data) := by
  induction data generalizing M with
  | nil => simp
  | cons b bs ih =>
    rw [List.foldl_cons, sha256_push_after, ih]
    simp

theorem sha256_after_wf (e : Endian) (M : List Nat) : sha256_wf (sha256_after e M) := by
  have hr : M.length % 64 < 64 := Nat.mod_lt _ (by decide)
  refine ⟨?_, hr⟩
  simp only [sha256_after, List.length_append, List.length_drop, List.length_replicate]
  omega

/-- After `sha256_init`, process calls on chunks reach the state after the concatenation. -/
theorem sha256_process_chunks_after (e : Endian) (chunks : List (List Nat)) :
    sha256_process_chunks e sha256_init chunks = some (0, sha256_after e chunks.flatten) := by
  rw [sha256_process_chunks_eq e chunks _ sha256_init_wf, ← sha256_after_nil e,
    sha256_foldl_push_after]
  simp

/-! ## SHA-256: invariants of reachable states -/

/-- C14: buffer-count invariant. After `sha256_init` and any sequence of
`sha256_process` calls (all of which return 0), the fill count `input_length`
is below `BLOCK_SIZE`, so the index at which `sha256_finish` stores the `0x80`
marker lies inside the 64-byte buffer and the assertion at the start of
`sha256_finish` holds (the call has a result). -/
theorem sha256_buffer_count_invariant (e : Endian) (chunks : List (List Nat)) :
    ∃ ctx, sha256_process_chunks e sha256_init chunks = some (0, ctx)
      ∧ ctx.input_length < BLOCK_SIZE
      ∧ ctx.input.length = 64
      ∧ ctx.input_length < ctx.input.length
      ∧ sha256_finish e ctx ≠ none := by
  have hwf := sha256_after_wf e chunks.flatten
  refine ⟨_, sha256_process_chunks_after e chunks, hwf.2, hwf.1, ?_, ?_⟩
  · rw [hwf.1]; exact hwf.2
  · obtain ⟨c, hc⟩ := sha256_finish_wf e _ hwf
    rw [hc]; exact Option.some_ne_none _

/-- C18, what the code does: after `sha256_init` and any sequence of
`sha256_process` calls the field `length` is 0, whatever the number of bytes
submitted; for instance it is 0, not 1, after one byte. -/
theorem sha256_length_never_advances (e : Endian) (chunks : List (List Nat)) :
    (∃ ctx, sha256_process_chunks e sha256_init chunks = some (0, ctx) ∧ ctx.length = 0)
    ∧ (∃ ctx, sha256_process e sha256_init [0x61] = some (0, ctx) ∧ ctx.length = 0
        ∧ ctx.length ≠ [0x61].length % 2 ^ 64) := by
  refine ⟨⟨_, sha256_process_chunks_after e chunks, rfl⟩, ?_⟩
  have h := sha256_process_chunks_after e [[0x61]]
  have h2 : sha256_process_chunks e sha256_init [[0x61]] = sha256_process e sha256_init [0x61] := by
    simp only [sha256_process_chunks]
    rw [sha256_process_eq e _ _ sha256_init_wf]
  rw [h2] at h
  refine ⟨_, h, rfl, ?_⟩
  show (0 : Nat) ≠ [0x61].length % 2 ^ 64
  decide

/-- C20: the precondition check of `sha256_update`. The result is non-zero
exactly when the fill count is not 64; in that case the context (hash words,
buffer, fill count, length) is returned unchanged; when the result is 0 the
fill count is 0 and the buffer is 64 zero bytes. -/
theorem sha256_update_check (e : Endian) (ctx : sha256_context) :
    ((sha256_update e ctx).1 ≠ 0 ↔ ctx.input_length ≠ 64)
    ∧ ((sha256_update e ctx).1 ≠ 0 → (sha256_update e ctx).2 = ctx)
    ∧ ((sha256_update e ctx).1 = 0 →
        (sha256_update e ctx).2.input_length = 0
        ∧ (sha256_update e ctx).2.input = List.replicate 64 0) := by
  by_cases h : ctx.input_length = 64
  · rw [sha256_update_full e ctx h]
    simp [h]
  · have hu : sha256_update e ctx = (1, ctx) := by
      simp [sha256_update, BLOCK_SIZE_eq, h]
    rw [hu]
    simp [h]

/-- Witness for C20: a context with 3 buffered bytes is rejected unchanged, a
context with 64 buffered bytes is accepted and cleared. -/
theorem sha256_update_check_witness :
    (sha256_update Endian.little { sha256_init with input_length := 3 }).2
      = { sha256_init with input_length := 3 }
    ∧ (sha256_update Endian.little { sha256_init with input_length := 64 }).2.input_length = 0 :=
  ⟨(sha256_update_check Endian.little { sha256_init with input_length := 3 }).2.1
      (by simp [sha256_update, BLOCK_SIZE_eq, sha256_init]),
   ((sha256_update_check Endian.little { sha256_init with input_length := 64 }).2.2
      (by simp [sha256_update, BLOCK_SIZE_eq, sha256_init])).1⟩

/-- C22: SHA-256 never reports an internal error on a valid run. In the state
reached from `sha256_init` by any sequence of `sha256_process` calls, a
further `sha256_process` call on any chunk has a result and returns 0, and so
does `sha256_finish`: the error branch of `sha256_update` is not taken. -/
theorem sha256_never_fails (e : Endian) (chunks : List (List Nat)) (data : List Nat) :
    ∃ ctx, sha256_process_chunks e sha256_init chunks = some (0, ctx)
      ∧ (∃ ctx1, sha256_process e ctx data = some (0, ctx1))
      ∧ (∃ ctx2 out, sha256_finish e ctx = some (0, ctx2, out)) := by
  have hwf := sha256_after_wf e chunks.flatten
  refine ⟨_, sha256_process_chunks_after e chunks, ⟨_, sha256_process_eq e _ data hwf⟩, ?_⟩
  obtain ⟨c, hc⟩ := sha256_finish_wf e _ hwf
  exact ⟨c, _, hc⟩

/-! ## The simple sums: tags and order -/

/-- C24: order-insensitivity of the simple sums. If `T` is a permutation of
`S`, every variant prints the same digest for `S` and for `T`. -/
theorem simple_sum_permutation (which : sum_type) (S T : List Nat) (h : S.Perm T) :
    simple_run which [S] = simple_run which [T] := by
  rw [simple_run_eq, simple_run_eq]
  simp only [List.flatten_cons, List.flatten_nil, List.append_nil]
  rw [h.sum_eq]

/-- Witness for C24: two orders of the same three bytes. -/
theorem simple_sum_permutation_witness :
    simple_run sum_type.SIMPLE16 [[1, 2, 3]] = simple_run sum_type.SIMPLE16 [[3, 1, 2]] :=
  simple_sum_permutation sum_type.SIMPLE16 [1, 2, 3] [3, 1, 2] (by decide)

/-! ## The registry and the simple-sum tag check -/

/-- When every `malloc` succeeds, `register_methods` returns 0 and the list
holds the five descriptors in registration order. -/
theorem register_methods_ok (e : Endian) :
    register_methods e (fun _ => true)
      = (0, [simple_8, simple_16, simple_32, simple_64, sha256 e]) := rfl

theorem simple_process_chunks_fst (chunks : List (List Nat)) (c : simple_context) :
    (simple_process_chunks c chunks).1 = 0 := by
  induction chunks generalizing c with
  | nil => rfl
  | cons x xs ih =>
    simp only [simple_process_chunks, simple_process]
    exact ih _

theorem api_process_chunks_simple (api : method_api)
    (hp : api.sum_process = simple_process_entry) (w : sum_type) (chunks : List (List Nat))
    (c : simple_context) :
    api_process_chunks api { which := w, context := some (method_state.simple c) } chunks
      = some (0, { which := w,
                   context := some (method_state.simple (simple_process_chunks c chunks).2) }) := by
  induction chunks generalizing c with
  | nil => rfl
  | cons x xs ih =>
    simp only [api_process_chunks, hp, simple_process_entry, simple_process,
      simple_process_chunks]
    exact ih _

/-- A run through a descriptor whose entry points are those of `sum.c` is the
run `simple_run` for the descriptor's tag. -/
theorem api_run_simple (api : method_api) (hi : api.sum_init = simple_init_entry)
    (hp : api.sum_process = simple_process_entry)
    (hf : api.sum_finish = simple_finish_entry) (chunks : List (List Nat)) :
    api_run api chunks = some (simple_run api.type chunks) := by
  unfold api_run
  simp only [hi, simple_init_entry, if_true]
  rw [api_process_chunks_simple api hp]
  simp only [hf, simple_finish_entry, simple_run]
  have h1 := simple_process_chunks_fst chunks simple_init
  rcases hsp : simple_process_chunks simple_init chunks with ⟨r, c⟩
  rw [hsp] at h1
  simp only at h1
  subst h1
  simp

theorem sha256_finish_entry_ne (e : Endian) : sha256_finish_entry e ≠ simple_finish_entry := by
  intro h
  have := congrFun h { which := sum_type.SIMPLE8,
                       context := some (method_state.simple simple_init) }
  simp [sha256_finish_entry, simple_finish_entry, simple_finish] at this

theorem simple_finish_ok (which : sum_type) (c : simple_context)
    (h : which = sum_type.SIMPLE8 ∨ which = sum_type.SIMPLE16 ∨ which = sum_type.SIMPLE32
      ∨ which = sum_type.SIMPLE64) : (simple_finish which c).1 = 0 := by
  rcases h with h | h | h | h <;> subst h <;> rfl

/-- C21: the simple-sum tag check. `simple_finish` returns non-zero exactly
when the tag is none of `SIMPLE8`, `SIMPLE16`, `SIMPLE32`, `SIMPLE64`. Every
registered descriptor whose finish entry is `simple_finish` carries one of
these four tags, so with the tag the driver copies from the descriptor
`simple_finish` returns 0 on every state, and the whole run through the
descriptor returns 0. -/
theorem simple_finish_tag_check (e : Endian) :
    (∀ which c, (simple_finish which c).1 ≠ 0 ↔
        (which ≠ sum_type.SIMPLE8 ∧ which ≠ sum_type.SIMPLE16 ∧ which ≠ sum_type.SIMPLE32
          ∧ which ≠ sum_type.SIMPLE64))
    ∧ (∀ api, api ∈ (register_methods e (fun _ => true)).2 →
        api.sum_finish = simple_finish_entry →
        (api.type = sum_type.SIMPLE8 ∨ api.type = sum_type.SIMPLE16
          ∨ api.type = sum_type.SIMPLE32 ∨ api.type = sum_type.SIMPLE64)
        ∧ (∀ c, (simple_finish api.type c).1 = 0)
        ∧ (∀ chunks, ∃ out, api_run api chunks = some (0, out))) := by
  constructor
  · intro which c
    cases which <;> simp [simple_finish]
  · intro api hmem hfin
    rw [register_methods_ok] at hmem
    simp only [List.mem_cons, List.mem_singleton, List.not_mem_nil, or_false] at hmem
    have key : ∀ a : method_api, a.sum_init = simple_init_entry →
        a.sum_process = simple_process_entry → a.sum_finish = simple_finish_entry →
        (a.type = sum_type.SIMPLE8 ∨ a.type = sum_type.SIMPLE16
          ∨ a.type = sum_type.SIMPLE32 ∨ a.type = sum_type.SIMPLE64) →
        (a.type = sum_type.SIMPLE8 ∨ a.type = sum_type.SIMPLE16
          ∨ a.type = sum_type.SIMPLE32 ∨ a.type = sum_type.SIMPLE64)
        ∧ (∀ c, (simple_finish a.type c).1 = 0)
        ∧ (∀ chunks, ∃ out, api_run a chunks = some (0, out)) := by
      intro a hi hp hf ht
      refine ⟨ht, fun c => simple_finish_ok _ c ht, fun chunks => ?_⟩
      rw [api_run_simple a hi hp hf, simple_run_eq]
      have := simple_finish_ok a.type { sum := chunks.flatten.sum % 2 ^ 64 } ht
      rcases hsf : simple_finish a.type { sum := chunks.flatten.sum % 2 ^ 64 } with ⟨r, out⟩
      rw [hsf] at this
      simp only at this
      subst this
      exact ⟨out, rfl⟩
    rcases hmem with h | h | h | h | h
    · subst h; exact key simple_8 rfl rfl rfl (Or.inl rfl)
    · subst h; exact key simple_16 rfl rfl rfl (Or.inr (Or.inl rfl))
    · subst h; exact key simple_32 rfl rfl rfl (Or.inr (Or.inr (Or.inl rfl)))
    · subst h; exact key simple_64 rfl rfl rfl (Or.inr (Or.inr (Or.inr rfl)))
    · subst h; exact absurd hfin (sha256_finish_entry_ne e)

/-- Witness for C21: the descriptor `simple_16` of the registry. -/
theorem simple_finish_tag_check_witness :
    simple_16.type = sum_type.SIMPLE8 ∨ simple_16.type = sum_type.SIMPLE16
      ∨ simple_16.type = sum_type.SIMPLE32 ∨ simple_16.type = sum_type.SIMPLE64 :=
  ((simple_finish_tag_check Endian.little).2 simple_16
    (by rw [register_methods_ok]; simp) rfl).1

/-! ## SHA-256: what `sha256_finish` compresses -/

theorem memcpy_trailer (A : List Nat) (n : Nat) (T : List Nat) (hA : A.length + n = 64)
    (hT : T.length = 8) (h56 : A.length ≤ 56) :
    memcpy (A ++ List.replicate n 0) 56 T = A ++ List.replicate (56 - A.length) 0 ++ T := by
  unfold memcpy
  rw [List.take_append_eq_append_take, List.take_of_length_le h56, List.take_replicate,
    List.drop_of_length_le (by simp [hT]; omega), List.append_nil]
  congr 3
  omega

theorem trailer_bytes (e : Endian) (x : Nat) (hx : x < 2 ^ 64) :
    bytesOfWord e 8 (TO_BE64 e x) = (leBytes 8 x).reverse :=
  bytesOfWord_to_be e 64 8 x hx

/-- The padding step of `sha256_finish` when the marker leaves room for the
length: nothing is compressed. -/
theorem sha256_finish_pad_short (e : Endian) (ctx : sha256_context)
    (h : ctx.input_length + 1 < 56) :
    sha256_finish_pad e ctx =
      (0, { H := ctx.H,
            input := memcpy (ctx.input.set ctx.input_length 0x80) 56
              (bytesOfWord e 8 (TO_BE64 e
                (((ctx.length + (ctx.input_length + 1)) % 2 ^ 64 + 2 ^ 64 - 1) % 2 ^ 64
                  * 8 % 2 ^ 64))),
            input_length := 64,
            length := ((ctx.length + (ctx.input_length + 1)) % 2 ^ 64 + 2 ^ 64 - 1) % 2 ^ 64,
            blocks := ctx.blocks }) := by
  unfold sha256_finish_pad
  simp only [BLOCK_SIZE_eq]
  rw [if_neg (by omega)]

/-- The padding step of `sha256_finish` when the marker leaves no room for the
length: the current block is compressed and the length goes to a fresh
block. -/
theorem sha256_finish_pad_long (e : Endian) (ctx : sha256_context)
    (h : 56 ≤ ctx.input_length + 1) :
    sha256_finish_pad e ctx =
      (0, { H := compress e ctx.H (ctx.input.set ctx.input_length 0x80),
            input := memcpy (List.replicate 64 0) 56
              (bytesOfWord e 8 (TO_BE64 e
                (((ctx.length % 2 ^ 64 + 0) % 2 ^ 64 + 2 ^ 64 - 1) % 2 ^ 64 * 8 % 2 ^ 64))),
            input_length := 64,
            length := ((ctx.length % 2 ^ 64 + 0) % 2 ^ 64 + 2 ^ 64 - 1) % 2 ^ 64,
            blocks := ctx.blocks ++ [ctx.input.set ctx.input_length 0x80] }) := by
  unfold sha256_finish_pad
  simp only [BLOCK_SIZE_eq]
  rw [if_pos (by omega), sha256_update_full e _ rfl]

/-- When `sha256_finish_pad` returns 0 with a full buffer, `sha256_finish`
compresses that buffer and displays the hash. -/
theorem sha256_finish_of_pad (e : Endian) (ctx c1 : sha256_context)
    (hlt : ctx.input_length < 64) (hp : sha256_finish_pad e ctx = (0, c1))
    (hl : c1.input_length = 64) :
    sha256_finish e ctx =
      some (0, { H := compress e c1.H c1.input, input := List.replicate 64 0,
                 input_length := 0, length := c1.length % 2 ^ 64,
                 blocks := c1.blocks ++ [c1.input] },
            sha256_display (compress e c1.H c1.input)) := by
  unfold sha256_finish
  simp only [BLOCK_SIZE_eq, hlt, not_true_eq_false, if_false, hp]
  rw [sha256_update_full e c1 hl]

/-- Closed form of `sha256_finish` on a context whose buffer holds `tail`
followed by zeros and whose `length` is 0. -/
theorem sha256_finish_closed (e : Endian) (ctx : sha256_context) (tail : List Nat)
    (hin : ctx.input = tail ++ List.replicate (64 - tail.length) 0)
    (hil : ctx.input_length = tail.length) (hlt : tail.length < 64) (hlen : ctx.length = 0) :
    ∃ ctx1, sha256_finish e ctx = some (0, ctx1, sha256_display ctx1.H)
      ∧ ctx1.blocks = ctx.blocks ++ sha256_padding_blocks tail
      ∧ ctx1.H = (sha256_padding_blocks tail).foldl (compress e) ctx.H := by
  have hrep : List.replicate (64 - tail.length) 0
      = (0 : Nat) :: List.replicate (63 - tail.length) 0 := by
    rw [show 64 - tail.length = (63 - tail.length) + 1 by omega, List.replicate_succ]
  have hset : ctx.input.set ctx.input_length 0x80
      = (tail ++ [0x80]) ++ List.replicate (63 - tail.length) 0 := by
    rw [hin, hil, hrep, set_append_length]; simp
  have hT : ∀ x, ((leBytes 8 x).reverse).length = 8 := by
    intro x; rw [List.length_reverse, leBytes_length]
  by_cases hc : tail.length ≤ 54
  · have hp := sha256_finish_pad_short e ctx (by omega)
    have hl : ((ctx.length + (ctx.input_length + 1)) % 2 ^ 64 + 2 ^ 64 - 1) % 2 ^ 64
        = tail.length := by rw [hlen, hil]; omega
    have hl8 : tail.length * 8 % 2 ^ 64 = 8 * tail.length := by omega
    have hm := memcpy_trailer (tail ++ [0x80]) (63 - tail.length)
      (leBytes 8 (8 * tail.length)).reverse (by simp; omega) (hT _) (by simp; omega)
    rw [List.length_append, List.length_singleton,
      show 56 - (tail.length + 1) = 55 - tail.length by omega] at hm
    rw [hl, hl8, trailer_bytes e _ (by omega), hset, hm] at hp
    have hf := sha256_finish_of_pad e ctx _ (by omega) hp rfl
    refine ⟨_, hf, ?_, ?_⟩
    · unfold sha256_padding_blocks
      rw [if_pos hc]
    · unfold sha256_padding_blocks
      rw [if_pos hc]
      rfl
  · have hp := sha256_finish_pad_long e ctx (by omega)
    have hl : ((ctx.length % 2 ^ 64 + 0) % 2 ^ 64 + 2 ^ 64 - 1) % 2 ^ 64 = 2 ^ 64 - 1 := by
      rw [hlen]; rfl
    have hl8 : (2 ^ 64 - 1) * 8 % 2 ^ 64 = 2 ^ 64 - 8 := by rfl
    have hm := memcpy_trailer [] 64 (leBytes 8 (2 ^ 64 - 8)).reverse (by simp) (hT _) (by simp)
    simp only [List.nil_append, List.length_nil, Nat.sub_zero] at hm
    rw [hl, hl8, trailer_bytes e _ (by decide), hset, hm] at hp
    have hf := sha256_finish_of_pad e ctx _ (by omega) hp rfl
    refine ⟨_, hf, ?_, ?_⟩
    · unfold sha256_padding_blocks
      rw [if_neg hc]
      simp only [List.append_assoc, List.singleton_append]
    · unfold sha256_padding_blocks
      rw [if_neg hc]
      rfl

/-- The state after a message satisfies the hypotheses of
`sha256_finish_closed`, with the tail of the message as `tail`. -/
theorem sha256_finish_after (e : Endian) (M : List Nat) :
    ∃ ctx1, sha256_finish e (sha256_after e M) = some (0, ctx1, sha256_display ctx1.H)
      ∧ ctx1.blocks = full_blocks M ++ sha256_padding_blocks (M.drop (64 * (M.length / 64)))
      ∧ ctx1.H = (sha256_padding_blocks (M.drop (64 * (M.length / 64)))).foldl (compress e)
          ((full_blocks M).foldl (compress e) sha256_init.H) := by
  have htl : (M.drop (64 * (M.length / 64))).length = M.length % 64 := by
    rw [List.length_drop]; omega
  have hr : M.length % 64 < 64 := Nat.mod_lt _ (by decide)
  exact sha256_finish_closed e (sha256_after e M) (M.drop (64 * (M.length / 64)))
    (by simp only [sha256_after, htl]) (by simp only [sha256_after, htl]) (by omega) rfl


theorem sha256_after_tail (e : Endian) (M : List Nat) :
    (sha256_after e M).input.take (sha256_after e M).input_length
        = M.drop (64 * (M.length / 64))
    ∧ (sha256_after e M).input.drop (sha256_after e M).input_length
        = List.replicate (64 - (sha256_after e M).input_length) 0
    ∧ (M.drop (64 * (M.length / 64))).length = (sha256_after e M).input_length := by
  have htl : (M.drop (64 * (M.length / 64))).length = M.length % 64 := by
    rw [List.length_drop]; omega
  refine ⟨?_, ?_, htl⟩
  · show List.take (M.length % 64) (M.drop (64 * (M.length / 64)) ++ _)
      = M.drop (64 * (M.length / 64))
    exact List.take_left' htl
  · show List.drop (M.length % 64) (M.drop (64 * (M.length / 64)) ++ _)
      = List.replicate (64 - M.length % 64) 0
    rw [List.drop_left' htl]

/-- C16, what the code does: in the state reached from `sha256_init` by
process calls, with fill count `c`, `sha256_finish` runs the compression step
once when `c <= 54` and twice when `c >= 55`. In particular it runs it twice
for a 55-byte message, although eight bytes are free after the marker. -/
theorem sha256_finish_compressions (e : Endian) (chunks : List (List Nat)) :
    (∃ ctx ctx1 out, sha256_process_chunks e sha256_init chunks = some (0, ctx)
      ∧ sha256_finish e ctx = some (0, ctx1, out)
      ∧ ctx1.blocks.length
          = ctx.blocks.length + (if ctx.input_length ≤ 54 then 1 else 2))
    ∧ (∃ ctx ctx1 out,
        sha256_process_chunks e sha256_init [List.replicate 55 0] = some (0, ctx)
        ∧ ctx.input_length = 55
        ∧ BLOCK_SIZE - (ctx.input_length + 1) = 8
        ∧ sha256_finish e ctx = some (0, ctx1, out)
        ∧ ctx1.blocks.length = ctx.blocks.length + 2) := by
  have gen : ∀ M : List Nat, ∃ ctx1 out,
      sha256_finish e (sha256_after e M) = some (0, ctx1, out)
      ∧ ctx1.blocks.length = (sha256_after e M).blocks.length
          + (if (sha256_after e M).input_length ≤ 54 then 1 else 2) := by
    intro M
    obtain ⟨c1, hf, hb, _⟩ := sha256_finish_after e M
    obtain ⟨_, _, hlen⟩ := sha256_after_tail e M
    refine ⟨c1, _, hf, ?_⟩
    rw [hb, List.length_append]
    show _ = (full_blocks M).length + _
    congr 1
    unfold sha256_padding_blocks
    rw [hlen]
    split <;> rfl
  constructor
  · obtain ⟨c1, out, hf, hb⟩ := gen chunks.flatten
    exact ⟨_, c1, out, sha256_process_chunks_after e chunks, hf, hb⟩
  · obtain ⟨c1, out, hf, hb⟩ := gen [List.replicate 55 0].flatten
    have hil : (sha256_after e [List.replicate 55 0].flatten).input_length = 55 := rfl
    refine ⟨_, c1, out, sha256_process_chunks_after e _, hil, rfl, hf, ?_⟩
    rw [hb, hil]
    rfl

/-- C17: zero padding. In the state reached from `sha256_init` by process
calls, every buffer byte from index `input_length` on is zero. Hence the
blocks that `sha256_finish` hands to the compression step are: for a fill
count `c <= 54`, the `c` buffered bytes, `0x80`, `55 - c` zero bytes and the
eight trailer bytes; for `c >= 55`, a first block with the `c` buffered bytes,
`0x80` and `63 - c` zero bytes up to the block end, then a block of 56 zero
bytes and the eight trailer bytes. -/
theorem sha256_zero_padding (e : Endian) (chunks : List (List Nat)) :
    ∃ ctx ctx1 out T, sha256_process_chunks e sha256_init chunks = some (0, ctx)
      ∧ ctx.input.drop ctx.input_length = List.replicate (64 - ctx.input_length) 0
      ∧ sha256_finish e ctx = some (0, ctx1, out)
      ∧ T.length = 8
      ∧ ctx1.blocks = ctx.blocks ++
          (if ctx.input_length ≤ 54 then
            [ctx.input.take ctx.input_length ++ [0x80]
              ++ List.replicate (55 - ctx.input_length) 0 ++ T]
           else
            [ctx.input.take ctx.input_length ++ [0x80]
              ++ List.replicate (63 - ctx.input_length) 0,
             List.replicate 56 0 ++ T]) := by
  obtain ⟨c1, hf, hb, _⟩ := sha256_finish_after e chunks.flatten
  obtain ⟨htake, hdrop, hlen⟩ := sha256_after_tail e chunks.flatten
  have hT : ∀ x, ((leBytes 8 x).reverse).length = 8 := by
    intro x; rw [List.length_reverse, leBytes_length]
  by_cases hc : (sha256_after e chunks.flatten).input_length ≤ 54
  · refine ⟨_, c1, _,
      (leBytes 8 (8 * (chunks.flatten.drop (64 * (chunks.flatten.length / 64))).length)).reverse,
      sha256_process_chunks_after e chunks, hdrop, hf, hT _, ?_⟩
    rw [hb, if_pos hc, htake]
    unfold sha256_padding_blocks
    rw [hlen, if_pos hc]
    rfl
  · refine ⟨_, c1, _, (leBytes 8 (2 ^ 64 - 8)).reverse,
      sha256_process_chunks_after e chunks, hdrop, hf, hT _, ?_⟩
    rw [hb, if_neg hc, htake]
    unfold sha256_padding_blocks
    rw [hlen, if_neg hc]
    rfl

/-! ## SHA-256: streaming equals block-wise hashing -/

theorem full_blocks_length (M : List Nat) : (full_blocks M).length = M.length / 64 := by
  simp [full_blocks]

theorem sha256_push_count (e : Endian) (ctx : sha256_context) (b : Nat)
    (h : sha256_wf ctx) :
    (sha256_push e ctx b).blocks.length = ctx.blocks.length + (ctx.input_length + 1) / 64
    ∧ (sha256_push e ctx b).input_length = (ctx.input_length + 1) % 64 := by
  obtain ⟨_, h2⟩ := h
  unfold sha256_push
  by_cases hc : ctx.input_length + 1 = 64
  · simp only [BLOCK_SIZE_eq, hc, if_true]
    rw [sha256_update_full e _ rfl]
    simp
  · simp only [BLOCK_SIZE_eq, hc, if_false]
    constructor <;> omega

theorem sha256_foldl_push_count (e : Endian) (data : List Nat) (ctx : sha256_context)
    (h : sha256_wf ctx) :
    (data.foldl (sha256_push e) ctx).blocks.length
        = ctx.blocks.length + (ctx.input_length + data.length) / 64
    ∧ (data.foldl (sha256_push e) ctx).input_length
        = (ctx.input_length + data.length) % 64 := by
  induction data generalizing ctx with
  | nil =>
    have := h.2
    simp only [List.foldl_nil, List.length_nil, Nat.add_zero]
    constructor <;> omega
  | cons b bs ih =>
    obtain ⟨h1, h2⟩ := sha256_push_count e ctx b h
    obtain ⟨i1, i2⟩ := ih _ (sha256_push_wf e ctx b h)
    simp only [List.foldl_cons, List.length_cons]
    rw [i1, i2, h1, h2]
    constructor <;> omega

/-- C19: streaming equals block-wise hashing. After `sha256_init` and process
calls in any chunking whose chunks concatenate to `M`, the hash words are the
left fold of the compression over the `|M| / 64` consecutive full blocks of
`M` from the initial hash value (these are exactly the blocks compressed), the
fill count is `|M| mod 64`, and the first `|M| mod 64` buffer bytes are the
remaining tail of `M`. A single process call on a context with a 64-byte
buffer and fill count `c < 64` and a chunk of `n` bytes returns 0, runs the
compression `(c + n) / 64` times and leaves fill count `(c + n) mod 64`, so
all `n` bytes are consumed. -/
theorem sha256_streaming_blockwise (e : Endian) (chunks : List (List Nat)) :
    (∃ ctx, sha256_process_chunks e sha256_init chunks = some (0, ctx)
      ∧ ctx.H = (full_blocks chunks.flatten).foldl (compress e) sha256_init.H
      ∧ (full_blocks chunks.flatten).length = chunks.flatten.length / 64
      ∧ ctx.blocks = full_blocks chunks.flatten
      ∧ ctx.input_length = chunks.flatten.length % 64
      ∧ ctx.input.take ctx.input_length
          = chunks.flatten.drop (64 * (chunks.flatten.length / 64)))
    ∧ (∀ (ctx : sha256_context) (data : List Nat),
        ctx.input.length = 64 → ctx.input_length < 64 →
        ∃ ctx1, sha256_process e ctx data = some (0, ctx1)
          ∧ ctx1.blocks.length
              = ctx.blocks.length + (ctx.input_length + data.length) / 64
          ∧ ctx1.input_length = (ctx.input_length + data.length) % 64
          ∧ 64 * ((ctx.input_length + data.length) / 64) + ctx1.input_length
              = ctx.input_length + data.length) := by
  constructor
  · exact ⟨_, sha256_process_chunks_after e chunks, rfl, full_blocks_length _, rfl, rfl,
      (sha256_after_tail e chunks.flatten).1⟩
  · intro ctx data h1 h2
    obtain ⟨c1, c2⟩ := sha256_foldl_push_count e data ctx ⟨h1, h2⟩
    refine ⟨_, sha256_process_eq e ctx data ⟨h1, h2⟩, c1, c2, ?_⟩
    rw [c2]
    omega

/-- Witness for C19: a 130-byte chunk submitted to a fresh context. -/
theorem sha256_streaming_blockwise_witness :
    ∃ ctx1, sha256_process Endian.big sha256_init (List.replicate 130 7) = some (0, ctx1)
      ∧ ctx1.blocks.length
          = sha256_init.blocks.length
            + (sha256_init.input_length + (List.replicate 130 7).length) / 64
      ∧ ctx1.input_length = (sha256_init.input_length + (List.replicate 130 7).length) % 64
      ∧ 64 * ((sha256_init.input_length + (List.replicate 130 7).length) / 64)
          + ctx1.input_length
          = sha256_init.input_length + (List.replicate 130 7).length :=
  (sha256_streaming_blockwise Endian.big []).2 sha256_init (List.replicate 130 7)
    (by decide) (by decide)

/-! ## Output shape -/

theorem hexChar_mem (d : Nat) (h : d < 16) : hexChar d ∈ hex_digits := by
  revert d
  decide

theorem hexFixed_mem (k v : Nat) : ∀ c ∈ hexFixed k v, c ∈ hex_digits := by
  induction k generalizing v with
  | zero => intro c hc; simp [hexFixed] at hc
  | succ k ih =>
    intro c hc
    simp only [hexFixed, List.mem_append, List.mem_singleton] at hc
    rcases hc with hc | hc
    · exact ih _ c hc
    · subst hc; exact hexChar_mem _ (Nat.mod_lt _ (by decide))

/-- What `simple_finish` prints for a 64-bit sum: `0x`, exactly
`2 * output_size` hexadecimal digits of the sum reduced modulo the width, and
a newline. -/
theorem simple_finish_digits (s : Nat) (hs : s < 2 ^ 64) :
    simple_finish sum_type.SIMPLE8 { sum := s }
      = (0, ['0', 'x'] ++ hexFixed 2 (s % 2 ^ 8) ++ ['\n'])
    ∧ simple_finish sum_type.SIMPLE16 { sum := s }
      = (0, ['0', 'x'] ++ hexFixed 4 (s % 2 ^ 16) ++ ['\n'])
    ∧ simple_finish sum_type.SIMPLE32 { sum := s }
      = (0, ['0', 'x'] ++ hexFixed 8 (s % 2 ^ 32) ++ ['\n'])
    ∧ simple_finish sum_type.SIMPLE64 { sum := s }
      = (0, ['0', 'x'] ++ hexFixed 16 s ++ ['\n']) := by
  refine ⟨?_, ?_, ?_, ?_⟩
  · simp only [simple_finish]
    rw [show (0xff : Nat) = 2 ^ 8 - 1 from rfl, and_mask_eq_mod, Nat.mod_mod,
      printf_0x_eq_hexFixed 2 _ (by decide)
        (lt_of_lt_of_le (Nat.mod_lt _ (by decide)) (by decide : 2 ^ 8 ≤ 16 ^ 2))]
  · simp only [simple_finish]
    rw [show (0xffff : Nat) = 2 ^ 16 - 1 from rfl, and_mask_eq_mod, Nat.mod_mod,
      printf_0x_eq_hexFixed 4 _ (by decide)
        (lt_of_lt_of_le (Nat.mod_lt _ (by decide)) (by decide : 2 ^ 16 ≤ 16 ^ 4))]
  · simp only [simple_finish]
    rw [show (0xffffffff : Nat) = 2 ^ 32 - 1 from rfl, and_mask_eq_mod, Nat.mod_mod,
      printf_0x_eq_hexFixed 8 _ (by decide)
        (lt_of_lt_of_le (Nat.mod_lt _ (by decide)) (by decide : 2 ^ 32 ≤ 16 ^ 8))]
  · simp only [simple_finish]
    rw [printf_0x_eq_hexFixed 16 _ (by decide) (lt_of_lt_of_le hs (by decide))]

/-- The hash displayed after a compression: `0x`, eight groups of eight
hexadecimal digits, and a newline. -/
theorem sha256_display_compress (e : Endian) (H B : List Nat) :
    ∃ digits, sha256_display (compress e H B) = ['0', 'x'] ++ digits ++ ['\n']
      ∧ digits.length = 64 ∧ ∀ c ∈ digits, c ∈ hex_digits := by
  obtain ⟨a0, a1, a2, a3, a4, a5, a6, a7, hcomp⟩ :
      ∃ a0 a1 a2 a3 a4 a5 a6 a7, compress e H B
        = [a0 % 2 ^ 32, a1 % 2 ^ 32, a2 % 2 ^ 32, a3 % 2 ^ 32,
           a4 % 2 ^ 32, a5 % 2 ^ 32, a6 % 2 ^ 32, a7 % 2 ^ 32] :=
    ⟨_, _, _, _, _, _, _, _, rfl⟩
  rw [hcomp]
  have hb : ∀ a : Nat, printf_0x 8 (a % 2 ^ 32) = hexFixed 8 (a % 2 ^ 32) := fun a =>
    printf_0x_eq_hexFixed 8 _ (by decide)
      (lt_of_lt_of_le (Nat.mod_lt _ (by decide)) (by decide : 2 ^ 32 ≤ 16 ^ 8))
  have hd : sha256_display [a0 % 2 ^ 32, a1 % 2 ^ 32, a2 % 2 ^ 32, a3 % 2 ^ 32,
      a4 % 2 ^ 32, a5 % 2 ^ 32, a6 % 2 ^ 32, a7 % 2 ^ 32]
      = ['0', 'x'] ++ (hexFixed 8 (a0 % 2 ^ 32) ++ hexFixed 8 (a1 % 2 ^ 32)
          ++ hexFixed 8 (a2 % 2 ^ 32) ++ hexFixed 8 (a3 % 2 ^ 32)
          ++ hexFixed 8 (a4 % 2 ^ 32) ++ hexFixed 8 (a5 % 2 ^ 32)
          ++ hexFixed 8 (a6 % 2 ^ 32) ++ hexFixed 8 (a7 % 2 ^ 32)) ++ ['\n'] := by
    have hr : List.range HASH_SIZE_WORDS = [0, 1, 2, 3, 4, 5, 6, 7] := rfl
    unfold sha256_display
    rw [hr]
    simp only [List.map_cons, List.map_nil, List.getD_cons_zero, List.getD_cons_succ,
      List.flatten_cons, List.flatten_nil, hb, List.append_nil, List.append_assoc]
  refine ⟨_, hd, ?_, ?_⟩
  · simp only [List.length_append, hexFixed_length]
  · intro c hc
    simp only [List.mem_append] at hc
    rcases hc with ((((((hc | hc) | hc) | hc) | hc) | hc) | hc) | hc <;>
      exact hexFixed_mem _ _ c hc

/-- On a well-formed context `sha256_finish` returns 0 and prints the hash
obtained from a compression. -/
theorem sha256_finish_wf_display (e : Endian) (ctx : sha256_context) (h : sha256_wf ctx) :
    ∃ ctx1 H B, sha256_finish e ctx = some (0, ctx1, sha256_display (compress e H B)) := by
  obtain ⟨c1, hp, hl⟩ := sha256_finish_pad_wf e ctx h
  exact ⟨_, _, _, sha256_finish_of_pad e ctx c1 h.2 hp hl⟩

theorem api_process_chunks_sha256 (e : Endian) (w : sum_type) (chunks : List (List Nat))
    (c : sha256_context) (h : sha256_wf c) :
    api_process_chunks (sha256 e) { which := w, context := some (method_state.sha256 c) } chunks
      = some (0, { which := w, context := some (method_state.sha256
          (chunks.flatten.foldl (sha256_push e) c)) }) := by
  induction chunks generalizing c with
  | nil => rfl
  | cons x xs ih =>
    simp only [api_process_chunks, sha256, sha256_process_entry,
      sha256_process_eq e c x h, List.flatten_cons, List.foldl_append]
    exact ih _ (sha256_foldl_push_wf e x c h)

/-- A run through the descriptor `sha256` returns 0 and prints the hash
obtained from a compression. -/
theorem api_run_sha256 (e : Endian) (chunks : List (List Nat)) :
    ∃ H B, api_run (sha256 e) chunks = some (0, sha256_display (compress e H B)) := by
  obtain ⟨c1, H, B, hf⟩ := sha256_finish_wf_display e _
    (sha256_foldl_push_wf e chunks.flatten _ sha256_init_wf)
  refine ⟨H, B, ?_⟩
  unfold api_run
  have hi : (sha256 e).sum_init true { which := (sha256 e).type, context := none }
      = (0, { which := (sha256 e).type,
              context := some (method_state.sha256 sha256_init) }) := rfl
  rw [hi]
  simp only
  rw [api_process_chunks_sha256 e _ chunks _ sha256_init_wf]
  simp only [sha256, sha256_finish_entry, hf]

/-- C11: output shape. For each of the five registered descriptors and every
input (any list of chunks), the run through the descriptor returns 0 and
writes to standard output exactly `0x`, then exactly `2 * output_size`
characters, each one of `0123456789abcdef`, then one newline. -/
theorem output_shape (e : Endian) (api : method_api)
    (h : api ∈ (register_methods e (fun _ => true)).2) (chunks : List (List Nat)) :
    ∃ digits, api_run api chunks = some (0, ['0', 'x'] ++ digits ++ ['\n'])
      ∧ digits.length = 2 * api.output_size
      ∧ ∀ c ∈ digits, c ∈ hex_digits := by
  rw [register_methods_ok] at h
  simp only [List.mem_cons, List.mem_singleton, List.not_mem_nil, or_false] at h
  obtain ⟨d8, d16, d32, d64⟩ :=
    simple_finish_digits (chunks.flatten.sum % 2 ^ 64) (Nat.mod_lt _ (by decide))
  rcases h with h | h | h | h | h
  · subst h
    rw [api_run_simple simple_8 rfl rfl rfl, simple_run_eq]
    exact ⟨_, congrArg some d8, hexFixed_length _ _, hexFixed_mem _ _⟩
  · subst h
    rw [api_run_simple simple_16 rfl rfl rfl, simple_run_eq]
    exact ⟨_, congrArg some d16, hexFixed_length _ _, hexFixed_mem _ _⟩
  · subst h
    rw [api_run_simple simple_32 rfl rfl rfl, simple_run_eq]
    exact ⟨_, congrArg some d32, hexFixed_length _ _, hexFixed_mem _ _⟩
  · subst h
    rw [api_run_simple simple_64 rfl rfl rfl, simple_run_eq]
    exact ⟨_, congrArg some d64, hexFixed_length _ _, hexFixed_mem _ _⟩
  · subst h
    obtain ⟨H, B, hr⟩ := api_run_sha256 e chunks
    obtain ⟨digits, hd, hl, hm⟩ := sha256_display_compress e H B
    exact ⟨digits, by rw [hr, hd], by rw [hl]; rfl, hm⟩

/-- Witness for C11: the descriptor `simple_32` of the registry and the input
`[1, 2], [3]`. -/
theorem output_shape_witness :
    ∃ digits, api_run simple_32 [[1, 2], [3]] = some (0, ['0', 'x'] ++ digits ++ ['\n'])
      ∧ digits.length = 2 * simple_32.output_size
      ∧ ∀ c ∈ digits, c ∈ hex_digits :=
  output_shape Endian.little simple_32 (by rw [register_methods_ok]; simp) [[1, 2], [3]]

/-! ## The driver: method selection -/

theorem register_methods_of_malloc (e : Endian) (malloc_ok : Nat → Bool)
    (h : ∀ k, k < 5 → malloc_ok k = true) :
    register_methods e malloc_ok
      = (0, [simple_8, simple_16, simple_32, simple_64, sha256 e]) := by
  unfold register_methods register_method
  rw [h 0 (by decide), h 1 (by decide), h 2 (by decide), h 3 (by decide), h 4 (by decide)]
  rfl

theorem select_method_registered (e : Endian) (s : String) :
    select_method [simple_8, simple_16, simple_32, simple_64, sha256 e] s =
      if s = "-8" then some simple_8
      else if s = "-16" then some simple_16
      else if s = "-32" then some simple_32
      else if s = "-64" then some simple_64
      else if s = "-sha256" then some (sha256 e)
      else none := rfl

/-- C12: selector lookup is exact. When registration succeeds and the first
argument `s` is neither `-h` nor `--help`, the selection loop finds a
descriptor if and only if `s` is exactly one of `-8`, `-16`, `-32`, `-64`,
`-sha256`; the descriptor found is a registered one whose selector equals `s`;
otherwise nothing is selected, `main` exits with code 1, writes nothing to
standard output and calls no entry point (no context is initialised). A
proper part of a selector (`-sha`) and an extension of one (`-8x`) select
nothing. -/
theorem selector_lookup_exact (e : Endian) (env : environment) (s : String)
    (hm : ∀ k, k < 5 → env.malloc_ok k = true)
    (hlen : 2 ≤ env.argv.length) (hs : env.argv.getD 1 "" = s)
    (hh : s ≠ "-h") (hhh : s ≠ "--help") :
    ((∃ api, select_method (register_methods e env.malloc_ok).2 s = some api)
        ↔ s ∈ ["-8", "-16", "-32", "-64", "-sha256"])
    ∧ (∀ api, select_method (register_methods e env.malloc_ok).2 s = some api →
        api.args = s ∧ api ∈ (register_methods e env.malloc_ok).2)
    ∧ (s ∉ ["-8", "-16", "-32", "-64", "-sha256"] →
        select_method (register_methods e env.malloc_ok).2 s = none
        ∧ main e env = some { exit_code := 1, stdout := [], calls := [] })
    ∧ select_method (register_methods e env.malloc_ok).2 "-sha" = none
    ∧ select_method (register_methods e env.malloc_ok).2 "-8x" = none := by
  have hreg := register_methods_of_malloc e env.malloc_ok hm
  rw [hreg]
  simp only [select_method_registered]
  have hnone : ∀ t : String, t ∉ ["-8", "-16", "-32", "-64", "-sha256"] →
      (if t = "-8" then some simple_8
        else if t = "-16" then some simple_16
        else if t = "-32" then some simple_32
        else if t = "-64" then some simple_64
        else if t = "-sha256" then some (sha256 e)
        else none) = none := by
    intro t hn
    simp only [List.mem_cons, List.mem_singleton, List.not_mem_nil, or_false, not_or] at hn
    obtain ⟨n1, n2, n3, n4, n5⟩ := hn
    rw [if_neg n1, if_neg n2, if_neg n3, if_neg n4, if_neg n5]
  refine ⟨?_, ?_, ?_, hnone "-sha" (by decide), hnone "-8x" (by decide)⟩
  · constructor
    · rintro ⟨api, hapi⟩
      by_contra hn
      rw [hnone s hn] at hapi
      exact Option.noConfusion hapi
    · intro hin
      simp only [List.mem_cons, List.mem_singleton, List.not_mem_nil, or_false] at hin
      rcases hin with h | h | h | h | h <;> subst h <;> exact ⟨_, rfl⟩
  · intro api hapi
    by_cases h1 : s = "-8"
    · rw [if_pos h1] at hapi
      cases hapi; exact ⟨h1.symm, by simp⟩
    rw [if_neg h1] at hapi
    by_cases h2 : s = "-16"
    · rw [if_pos h2] at hapi
      cases hapi; exact ⟨h2.symm, by simp⟩
    rw [if_neg h2] at hapi
    by_cases h3 : s = "-32"
    · rw [if_pos h3] at hapi
      cases hapi; exact ⟨h3.symm, by simp⟩
    rw [if_neg h3] at hapi
    by_cases h4 : s = "-64"
    · rw [if_pos h4] at hapi
      cases hapi; exact ⟨h4.symm, by simp⟩
    rw [if_neg h4] at hapi
    by_cases h5 : s = "-sha256"
    · rw [if_pos h5] at hapi
      cases hapi; exact ⟨h5.symm, by simp⟩
    rw [if_neg h5] at hapi
    exact Option.noConfusion hapi
  · intro hn
    refine ⟨hnone s hn, ?_⟩
    unfold main
    rw [hreg]
    simp only
    unfold driver
    have hl : ¬ env.argv.length ≤ 1 := by omega
    rw [if_neg hl]
    simp only [hs]
    rw [if_neg (by simp [hh, hhh]), select_method_registered, hnone s hn]

/-- Witness for C12: the command line `checksum -sha in.bin`. -/
theorem selector_lookup_exact_witness :
    main Endian.little
      { argv := ["checksum", "-sha", "in.bin"], malloc_ok := fun _ => true,
        stdin := { data := [], fails := false }, fopen := fun _ => none }
      = some { exit_code := 1, stdout := [], calls := [] } :=
  ((selector_lookup_exact Endian.little
      { argv := ["checksum", "-sha", "in.bin"], malloc_ok := fun _ => true,
        stdin := { data := [], fails := false }, fopen := fun _ => none }
      "-sha" (fun _ _ => rfl) (by decide) rfl (by decide) (by decide)).2.2.1
    (by decide)).2

/-! ## No digest on error -/

theorem sha256_finish_error_silent (e : Endian) (ctx : sha256_context) (r : Nat)
    (c : sha256_context) (out : List Char)
    (h : sha256_finish e ctx = some (r, c, out)) (hr : r ≠ 0) : out = [] := by
  unfold sha256_finish at h
  by_cases ha : ctx.input_length < BLOCK_SIZE
  · rw [if_neg (not_not.mpr ha)] at h
    rcases hp : sha256_finish_pad e ctx with ⟨r1, c1⟩
    rw [hp] at h
    cases r1 with
    | zero =>
      rcases hu : sha256_update e c1 with ⟨r2, c2⟩
      simp only [hu] at h
      cases r2 with
      | zero =>
        simp only [Option.some.injEq, Prod.mk.injEq] at h
        exact absurd h.1.symm hr
      | succ n =>
        simp only [Option.some.injEq, Prod.mk.injEq] at h
        exact h.2.2.symm
    | succ n =>
      simp only [Option.some.injEq, Prod.mk.injEq] at h
      exact h.2.2.symm
  · rw [if_pos ha] at h
    exact Option.noConfusion h

theorem simple_finish_error_silent (which : sum_type) (c : simple_context)
    (hr : (simple_finish which c).1 ≠ 0) : (simple_finish which c).2 = [] := by
  cases which <;> first | rfl | exact absurd rfl hr

theorem sha256_finish_entry_silent (e : Endian) (ctx : context) (r : Nat) (c : context)
    (out : List Char) (h : sha256_finish_entry e ctx = some (r, c, out)) (hr : r ≠ 0) :
    out = [] := by
  unfold sha256_finish_entry at h
  rcases hc : ctx.context with _ | ⟨s | s⟩
  · rw [hc] at h; exact Option.noConfusion h
  · rw [hc] at h; exact Option.noConfusion h
  · rw [hc] at h
    simp only at h
    rcases hf : sha256_finish e s with _ | ⟨r1, c1, o1⟩
    · rw [hf] at h; exact Option.noConfusion h
    · rw [hf] at h
      cases r1 with
      | zero =>
        simp only [Option.some.injEq, Prod.mk.injEq] at h
        exact absurd h.1.symm hr
      | succ n =>
        simp only [Option.some.injEq, Prod.mk.injEq] at h
        rw [← h.2.2]
        exact sha256_finish_error_silent e s _ c1 o1 hf (Nat.succ_ne_zero n)

theorem simple_finish_entry_silent (ctx : context) (r : Nat) (c : context)
    (out : List Char) (h : simple_finish_entry ctx = some (r, c, out)) (hr : r ≠ 0) :
    out = [] := by
  unfold simple_finish_entry at h
  rcases hc : ctx.context with _ | ⟨s | s⟩
  · rw [hc] at h; exact Option.noConfusion h
  · rw [hc] at h
    simp only [Option.some.injEq, Prod.mk.injEq] at h
    rw [← h.2.2]
    exact simple_finish_error_silent ctx.which s (by rw [h.1]; exact hr)
  · rw [hc] at h; exact Option.noConfusion h

/-- When the read loop is left by `break`, every `sum_process` call made in it
returned 0. -/
theorem read_loop_calls (api : method_api) (buf_size fuel : Nat) (ctx : context)
    (data : List Nat) (fails : Bool) (calls : List Nat) (ctx1 : context) (calls1 : List Nat)
    (hz : ∀ x ∈ calls, x = 0)
    (h : read_loop api buf_size fuel ctx data fails calls = some (0, ctx1, calls1)) :
    ∀ x ∈ calls1, x = 0 := by
  induction fuel generalizing ctx data calls with
  | zero => exact Option.noConfusion h
  | succ fuel ih =>
    have hz0 : ∀ x ∈ calls ++ [0], x = 0 := by
      intro x hx
      rw [List.mem_append, List.mem_singleton] at hx
      rcases hx with hx | hx
      · exact hz x hx
      · exact hx
    unfold read_loop at h
    by_cases hlt : data.length < buf_size
    · have hne : ¬ data.length = buf_size := by omega
      simp only [hlt, if_true, hne, if_false] at h
      by_cases hf : fails = true
      · rw [if_pos hf] at h
        simp only [Option.some.injEq, Prod.mk.injEq] at h
        exact absurd h.1 (by decide)
      · rw [if_neg hf] at h
        rcases hp : api.sum_process ctx (List.take data.length data) with _ | ⟨r, c⟩
        · rw [hp] at h; exact Option.noConfusion h
        · rw [hp] at h
          cases r with
          | zero =>
            simp only [Option.some.injEq, Prod.mk.injEq] at h
            rw [← h.2.2]
            exact hz0
          | succ n =>
            simp only [Option.some.injEq, Prod.mk.injEq] at h
            exact absurd h.1 (by decide)
    · simp only [hlt, if_false, if_true] at h
      rcases hp : api.sum_process ctx (List.take buf_size data) with _ | ⟨r, c⟩
      · rw [hp] at h; exact Option.noConfusion h
      · rw [hp] at h
        cases r with
        | zero => exact ih _ _ _ hz0 h
        | succ n =>
          simp only [Option.some.injEq, Prod.mk.injEq] at h
          exact absurd h.1 (by decide)


theorem checksum_stream_error (api : method_api) (malloc_ok : Nat → Bool)
    (input : input_stream) (res : main_result)
    (hfin : ∀ ctx r c out, api.sum_finish ctx = some (r, c, out) → r ≠ 0 → out = [])
    (h : checksum_stream api malloc_ok input = some res)
    (herr : ∃ x ∈ res.calls, x ≠ 0) : res.exit_code = 1 ∧ res.stdout = [] := by
  unfold checksum_stream at h
  simp only at h
  rcases hi : api.sum_init (malloc_ok 5) { which := api.type, context := none } with ⟨r0, c0⟩
  rw [hi] at h
  cases r0 with
  | succ n =>
    simp only [Option.some.injEq] at h
    rw [← h]; exact ⟨rfl, rfl⟩
  | zero =>
    simp only at h
    by_cases hb : malloc_ok 6 = true
    · rw [if_pos hb] at h
      rcases hl : read_loop api (if api.chunk_size = 0 then 256 * 1024 else api.chunk_size)
          (input.data.length + 1) c0 input.data input.fails [0] with _ | ⟨st, c2, calls⟩
      · rw [hl] at h; exact Option.noConfusion h
      · rw [hl] at h
        cases st with
        | succ n =>
          simp only [Option.some.injEq] at h
          rw [← h]; exact ⟨rfl, rfl⟩
        | zero =>
          have hz := read_loop_calls api _ _ c0 input.data input.fails [0] c2 calls
            (by intro x hx; simpa using hx) hl
          simp only at h
          rcases hf : api.sum_finish c2 with _ | ⟨r, c3, out⟩
          · rw [hf] at h; exact Option.noConfusion h
          · rw [hf] at h
            cases r with
            | zero =>
              simp only [Option.some.injEq] at h
              obtain ⟨x, hx, hne⟩ := herr
              rw [← h] at hx
              simp only [List.mem_append, List.mem_singleton] at hx
              rcases hx with hx | hx
              · exact absurd (hz x hx) hne
              · exact absurd hx hne
            | succ n =>
              simp only [Option.some.injEq] at h
              rw [← h]
              exact ⟨rfl, hfin c2 _ c3 out hf (Nat.succ_ne_zero n)⟩
    · rw [if_neg hb] at h
      simp only [Option.some.injEq] at h
      rw [← h]; exact ⟨rfl, rfl⟩

theorem select_method_mem (list : List method_api) (s : String) (api : method_api)
    (h : select_method list s = some api) : api ∈ list := by
  induction list with
  | nil => exact Option.noConfusion h
  | cons a rest ih =>
    unfold select_method at h
    by_cases ha : s = a.args
    · rw [if_pos ha] at h
      cases h
      exact List.mem_cons_self _ _
    · rw [if_neg ha] at h
      exact List.mem_cons_of_mem _ (ih h)

theorem driver_error (list : List method_api) (env : environment) (res : main_result)
    (hfin : ∀ api ∈ list, ∀ ctx r c out,
      api.sum_finish ctx = some (r, c, out) → r ≠ 0 → out = [])
    (h : driver list env = some res)
    (herr : ∃ x ∈ res.calls, x ≠ 0) : res.exit_code = 1 ∧ res.stdout = [] := by
  have hno : ∀ (ec : Nat) (out : List Char),
      some ({ exit_code := ec, stdout := out, calls := [] } : main_result) = some res →
      res.exit_code = 1 ∧ res.stdout = [] := by
    intro ec out heq
    simp only [Option.some.injEq] at heq
    obtain ⟨x, hx, _⟩ := herr
    rw [← heq] at hx
    exact absurd hx (List.not_mem_nil x)
  unfold driver at h
  by_cases h1 : env.argv.length ≤ 1
  · rw [if_pos h1] at h; exact hno _ _ h
  · rw [if_neg h1] at h
    simp only at h
    by_cases h2 : env.argv.getD 1 "" = "-h" ∨ env.argv.getD 1 "" = "--help"
    · rw [if_pos h2] at h; exact hno _ _ h
    · rw [if_neg h2] at h
      rcases hs : select_method list (env.argv.getD 1 "") with _ | api
      · rw [hs] at h; exact hno _ _ h
      · rw [hs] at h
        simp only at h
        by_cases h3 : env.argv.length < 3
        · rw [if_pos h3] at h; exact hno _ _ h
        · rw [if_neg h3] at h
          rcases hin : (if env.argv.getD 2 "" = "-" then some env.stdin
              else env.fopen (env.argv.getD 2 "")) with _ | inp
          · rw [hin] at h; exact hno _ _ h
          · rw [hin] at h
            exact checksum_stream_error api env.malloc_ok inp res
              (hfin api (select_method_mem list _ api hs)) h herr

theorem register_methods_cases (e : Endian) (malloc_ok : Nat → Bool) :
    register_methods e malloc_ok
        = (0, [simple_8, simple_16, simple_32, simple_64, sha256 e])
    ∨ ∃ r list, register_methods e malloc_ok = (r, list) ∧ r ≠ 0 := by
  unfold register_methods register_method
  cases malloc_ok 0 <;> cases malloc_ok 1 <;> cases malloc_ok 2 <;> cases malloc_ok 3 <;>
    cases malloc_ok 4 <;> first
      | (left; rfl)
      | (right; exact ⟨_, _, rfl, by decide⟩)

theorem registered_finish_silent (e : Endian) (api : method_api)
    (hm : api ∈ [simple_8, simple_16, simple_32, simple_64, sha256 e]) :
    ∀ ctx r c out, api.sum_finish ctx = some (r, c, out) → r ≠ 0 → out = [] := by
  simp only [List.mem_cons, List.mem_singleton, List.not_mem_nil, or_false] at hm
  rcases hm with h | h | h | h | h <;> subst h
  · exact simple_finish_entry_silent
  · exact simple_finish_entry_silent
  · exact simple_finish_entry_silent
  · exact simple_finish_entry_silent
  · exact sha256_finish_entry_silent e

theorem main_error (e : Endian) (env : environment) (res : main_result)
    (h : main e env = some res) (herr : ∃ x ∈ res.calls, x ≠ 0) :
    res.exit_code = 1 ∧ res.stdout = [] := by
  unfold main at h
  rcases register_methods_cases e env.malloc_ok with hr | ⟨r, list, hr, hne⟩
  · rw [hr] at h
    exact driver_error _ env res (registered_finish_silent e) h herr
  · rw [hr] at h
    have : some ({ exit_code := 1, stdout := [], calls := [] } : main_result) = some res := by
      cases r with
      | ofNat n =>
        cases n with
        | zero => exact absurd rfl hne
        | succ m => exact h
      | negSucc n => exact h
    simp only [Option.some.injEq] at this
    rw [← this]; exact ⟨rfl, rfl⟩

/-- C13: no partial digest on error. `sha256_finish` and `simple_finish`, on
any state, have written nothing to standard output when they return a
non-zero result. In the driver, for any descriptor whose finish entry has
that property, and in `main` with the registered descriptors: whenever a
call of `sum_init`, `sum_process` or `sum_finish` returned non-zero, the exit
code is 1 and nothing was written to standard output. -/
theorem no_partial_digest (e : Endian) :
    (∀ ctx r c out, sha256_finish e ctx = some (r, c, out) → r ≠ 0 → out = [])
    ∧ (∀ which c, (simple_finish which c).1 ≠ 0 → (simple_finish which c).2 = [])
    ∧ (∀ (api : method_api) (malloc_ok : Nat → Bool) (input : input_stream)
        (res : main_result),
        (∀ ctx r c out, api.sum_finish ctx = some (r, c, out) → r ≠ 0 → out = []) →
        checksum_stream api malloc_ok input = some res →
        (∃ x ∈ res.calls, x ≠ 0) → res.exit_code = 1 ∧ res.stdout = [])
    ∧ (∀ (env : environment) (res : main_result), main e env = some res →
        (∃ x ∈ res.calls, x ≠ 0) → res.exit_code = 1 ∧ res.stdout = []) :=
  ⟨fun ctx r c out => sha256_finish_error_silent e ctx r c out,
   simple_finish_error_silent,
   fun api malloc_ok input res => checksum_stream_error api malloc_ok input res,
   fun env res => main_error e env res⟩

/-- Witness for C13: `checksum -8 -` with the `malloc` of `simple_init`
failing; and a descriptor whose `sum_process` reports an error. -/
theorem no_partial_digest_witness :
    (({ exit_code := 1, stdout := [], calls := [1] } : main_result).exit_code = 1
      ∧ ({ exit_code := 1, stdout := [], calls := [1] } : main_result).stdout = [])
    ∧ (({ exit_code := 1, stdout := [], calls := [0, 1] } : main_result).exit_code = 1
      ∧ ({ exit_code := 1, stdout := [], calls := [0, 1] } : main_result).stdout = []) :=
  ⟨(no_partial_digest Endian.little).2.2.2
      { argv := ["checksum", "-8", "-"], malloc_ok := fun k => decide (k ≠ 5),
        stdin := { data := [1, 2, 3], fails := false }, fopen := fun _ => none }
      { exit_code := 1, stdout := [], calls := [1] } rfl ⟨1, by simp, by decide⟩,
   (no_partial_digest Endian.little).2.2.1
      { simple_8 with sum_process := fun ctx _ => some (1, ctx) } (fun _ => true)
      { data := [1, 2, 3], fails := false }
      { exit_code := 1, stdout := [], calls := [0, 1] }
      simple_finish_entry_silent rfl ⟨1, by simp, by decide⟩⟩

/-! ## SHA-256: the compression is that of FIPS 180-4 -/

theorem ROTR_eq_FIPS (x n : Nat) (hx : x < 2 ^ 32) (hn : n ≤ 32) :
    ROTR x n = FIPS.ROTR n x := by
  unfold ROTR FIPS.ROTR
  have h32 : (2 : Nat) ^ 32 = 2 ^ n * 2 ^ (32 - n) := by
    rw [← Nat.pow_add]; congr 1; omega
  have hdiv : x / 2 ^ n < 2 ^ (32 - n) := by
    apply Nat.div_lt_of_lt_mul
    rw [← h32]; exact hx
  rw [Nat.shiftRight_eq_div_pow, Nat.shiftLeft_eq]
  have hm : x * 2 ^ (32 - n) % 2 ^ 32 = x % 2 ^ n * 2 ^ (32 - n) := by
    rw [h32, Nat.mul_mod_mul_right]
  rw [hm, Nat.or_comm, Nat.mul_comm (x % 2 ^ n), ← Nat.mul_add_lt_is_or hdiv, Nat.add_comm]

theorem xor_mask_eq_sub (x : Nat) (hx : x < 2 ^ 32) : x ^^^ 0xffffffff = 2 ^ 32 - 1 - x := by
  apply Nat.eq_of_testBit_eq
  intro i
  have h1 : 2 ^ 32 - 1 - x = 2 ^ 32 - (x + 1) := by omega
  rw [h1, Nat.testBit_two_pow_sub_succ hx, Nat.testBit_xor,
    show (0xffffffff : Nat) = 2 ^ 32 - 1 from rfl, Nat.testBit_two_pow_sub_one]
  by_cases hi : i < 32
  · simp [hi]
  · have : x.testBit i = false := by
      apply Nat.testBit_lt_two_pow
      exact lt_of_lt_of_le hx (Nat.pow_le_pow_right (by decide) (by omega))
    simp [hi, this]

theorem Ch_eq_FIPS (x y z : Nat) (hx : x < 2 ^ 32) : Ch x y z = FIPS.Ch x y z := by
  unfold Ch FIPS.Ch
  rw [xor_mask_eq_sub x hx]

theorem Maj_eq_FIPS (x y z : Nat) : Maj x y z = FIPS.Maj x y z := rfl

theorem sigma0_eq_FIPS (x : Nat) (hx : x < 2 ^ 32) : sigma0 x = FIPS.Sigma0 x := by
  unfold sigma0 FIPS.Sigma0
  rw [ROTR_eq_FIPS x 2 hx (by decide), ROTR_eq_FIPS x 13 hx (by decide),
    ROTR_eq_FIPS x 22 hx (by decide)]

theorem sigma1_eq_FIPS (x : Nat) (hx : x < 2 ^ 32) : sigma1 x = FIPS.Sigma1 x := by
  unfold sigma1 FIPS.Sigma1
  rw [ROTR_eq_FIPS x 6 hx (by decide), ROTR_eq_FIPS x 11 hx (by decide),
    ROTR_eq_FIPS x 25 hx (by decide)]

theorem gamma0_eq_FIPS (x : Nat) (hx : x < 2 ^ 32) : gamma0 x = FIPS.sigma0 x := by
  unfold gamma0 FIPS.sigma0 FIPS.SHR
  rw [ROTR_eq_FIPS x 7 hx (by decide), ROTR_eq_FIPS x 18 hx (by decide),
    Nat.shiftRight_eq_div_pow]

theorem gamma1_eq_FIPS (x : Nat) (hx : x < 2 ^ 32) : gamma1 x = FIPS.sigma1 x := by
  unfold gamma1 FIPS.sigma1 FIPS.SHR
  rw [ROTR_eq_FIPS x 17 hx (by decide), ROTR_eq_FIPS x 19 hx (by decide),
    Nat.shiftRight_eq_div_pow]


theorem getD_below (n : Nat) (W : List Nat) (i : Nat) (h : all_below n W) (hn : 0 < n) :
    W.getD i 0 < n := by
  rw [List.getD_eq_getElem?_getD]
  rcases hg : W[i]? with _ | x
  · exact hn
  · exact h x (List.getElem?_mem hg)

theorem leValue_lt (bs : List Nat) (h : all_below 256 bs) : leValue bs < 256 ^ bs.length := by
  induction bs with
  | nil => simp [leValue]
  | cons b bs ih =>
    have hb : b < 256 := h b (List.mem_cons_self _ _)
    have := ih (fun x hx => h x (List.mem_cons_of_mem _ hx))
    simp only [leValue, List.length_cons, pow_succ]
    omega

theorem be_value_lt (bs : List Nat) (h : all_below 256 bs) :
    FIPS.be_value bs < 256 ^ bs.length := by
  have := leValue_lt bs.reverse (fun x hx => h x (List.mem_reverse.mp hx))
  rw [← be_value_reverse, List.reverse_reverse, List.length_reverse] at this
  exact this

/-- The first schedule loop reads the sixteen big-endian words of the block,
whatever the byte order of the host. -/
theorem schedule_load_eq (e : Endian) (input : List Nat) (hl : input.length = 64)
    (hb : all_below 256 input) :
    schedule_load e input = FIPS.block_words input
    ∧ all_below (2 ^ 32) (FIPS.block_words input) := by
  have key : ∀ t, t < 16 →
      FROM_BE32 e (wordOfBytes e ((input.drop (4 * t)).take 4))
        = FIPS.be_value ((input.drop (4 * t)).take 4)
      ∧ FIPS.be_value ((input.drop (4 * t)).take 4) < 2 ^ 32 := by
    intro t ht
    have hlen : ((input.drop (4 * t)).take 4).length = 4 := by
      rw [List.length_take, List.length_drop]; omega
    have hbytes : all_below 256 ((input.drop (4 * t)).take 4) := fun x hx =>
      hb x (List.mem_of_mem_drop (List.mem_of_mem_take hx))
    have hlt := be_value_lt _ hbytes
    rw [hlen] at hlt
    have hlt32 : FIPS.be_value ((input.drop (4 * t)).take 4) < 2 ^ 32 :=
      lt_of_lt_of_le hlt (by decide)
    refine ⟨?_, hlt32⟩
    unfold FROM_BE32
    rw [from_be_wordOfBytes e 32 4 _ hlen hbytes, Nat.mod_eq_of_lt hlt32]
  constructor
  · unfold schedule_load FIPS.block_words
    apply List.map_congr_left
    intro t ht
    exact (key t (List.mem_range.mp ht)).1
  · intro x hx
    unfold FIPS.block_words at hx
    rw [List.mem_map] at hx
    obtain ⟨t, ht, rfl⟩ := hx
    exact (key t (List.mem_range.mp ht)).2

theorem schedule_extend_eq (n : Nat) (W : List Nat) (h : all_below (2 ^ 32) W) :
    schedule_extend n W = FIPS.schedule n W := by
  induction n generalizing W with
  | zero => rfl
  | succ n ih =>
    unfold schedule_extend FIPS.schedule
    simp only
    rw [gamma1_eq_FIPS _ (getD_below _ W _ h (by decide)),
      gamma0_eq_FIPS _ (getD_below _ W _ h (by decide))]
    apply ih
    intro x hx
    rw [List.mem_append, List.mem_singleton] at hx
    rcases hx with hx | hx
    · exact h x hx
    · rw [hx]; exact Nat.mod_lt _ (by decide)

theorem K_getD (t : Nat) (ht : t < 64) : FIPS.K.getD t 0 = K t := by
  rw [← K_eq_FIPS, List.getD_eq_getElem?_getD, List.getElem?_map,
    List.getElem?_range ht]
  rfl

theorem round_eq (v : working) (k w : Nat) (hv : all_below (2 ^ 32) v.toList) :
    (round v k w).toList = FIPS.step k w v.toList
    ∧ all_below (2 ^ 32) (round v k w).toList := by
  have ha : v.a < 2 ^ 32 := hv v.a (by simp [working.toList])
  have hb : v.b < 2 ^ 32 := hv v.b (by simp [working.toList])
  have hc : v.c < 2 ^ 32 := hv v.c (by simp [working.toList])
  have he : v.e < 2 ^ 32 := hv v.e (by simp [working.toList])
  have hf : v.f < 2 ^ 32 := hv v.f (by simp [working.toList])
  have hg : v.g < 2 ^ 32 := hv v.g (by simp [working.toList])
  constructor
  · unfold round FIPS.step working.toList
    simp only
    rw [sigma1_eq_FIPS _ he, sigma0_eq_FIPS _ ha, Ch_eq_FIPS _ _ _ he, Maj_eq_FIPS]
  · intro x hx
    unfold round working.toList at hx
    simp only [List.mem_cons, List.mem_singleton, List.not_mem_nil, or_false] at hx
    rcases hx with h | h | h | h | h | h | h | h <;> rw [h]
    · exact Nat.mod_lt _ (by decide)
    · exact ha
    · exact hb
    · exact hc
    · exact Nat.mod_lt _ (by decide)
    · exact he
    · exact hf
    · exact hg

theorem rounds_foldl_eq (W : List Nat) (l : List Nat) (hl : ∀ t ∈ l, t < 64) (v : working)
    (hv : all_below (2 ^ 32) v.toList) :
    (l.foldl (fun v t => round v (K t) (W.getD t 0)) v).toList
      = l.foldl (fun v t => FIPS.step (FIPS.K.getD t 0) (W.getD t 0) v) v.toList := by
  induction l generalizing v with
  | nil => rfl
  | cons t ts ih =>
    have ht : t < 64 := hl t (List.mem_cons_self _ _)
    obtain ⟨h1, h2⟩ := round_eq v (K t) (W.getD t 0) hv
    simp only [List.foldl_cons]
    rw [ih (fun x hx => hl x (List.mem_cons_of_mem _ hx)) _ h2, h1, K_getD t ht]

/-- The hash computation of `sha256_update` is the compression function of
FIPS 180-4 section 6.2.2, on either host byte order. -/
theorem compress_eq_FIPS (e : Endian) (H B : List Nat) (hH : H.length = 8)
    (hHb : all_below (2 ^ 32) H) (hB : B.length = 64) (hBb : all_below 256 B) :
    compress e H B = FIPS.compress H B := by
  obtain ⟨hload, hwords⟩ := schedule_load_eq e B hB hBb
  match H, hH with
  | [h0, h1, h2, h3, h4, h5, h6, h7], _ =>
    have hv : all_below (2 ^ 32)
        (working.toList { a := h0, b := h1, c := h2, d := h3,
                          e := h4, f := h5, g := h6, h := h7 }) := hHb
    have hr := rounds_foldl_eq (FIPS.schedule 48 (FIPS.block_words B)) (List.range 64)
      (fun t ht => List.mem_range.mp ht) _ hv
    unfold compress FIPS.compress rounds
    simp only [List.getD_cons_zero, List.getD_cons_succ]
    rw [hload, schedule_extend_eq 48 _ hwords]
    rw [show [h0, h1, h2, h3, h4, h5, h6, h7]
        = working.toList { a := h0, b := h1, c := h2, d := h3,
                           e := h4, f := h5, g := h6, h := h7 } from rfl, ← hr]
    simp only [working.toList, List.zipWith_cons_cons, List.zipWith_nil_right, Nat.add_comm]


/-- C15: the compression step equals FIPS 180-4 section 6.2.2. For every
context holding eight 32-bit hash words `H`, a 64-byte block `B` and fill
count 64, on either host, `sha256_update` returns 0 and replaces `H` by
`FIPS.compress H B`: the schedule starts with the sixteen big-endian words of
`B` and is extended with the lower-case sigma functions, the sixty-four rounds
use `T1`, `T2` with the upper-case Sigma functions, `Ch`, `Maj` and the FIPS
constants, and the working variables are added to `H` modulo `2 ^ 32`. -/
theorem sha256_update_is_FIPS_compression (e : Endian) (ctx : sha256_context)
    (hH : ctx.H.length = 8) (hHb : all_below (2 ^ 32) ctx.H)
    (hB : ctx.input.length = 64) (hBb : all_below 256 ctx.input)
    (hil : ctx.input_length = 64) :
    (sha256_update e ctx).1 = 0
    ∧ (sha256_update e ctx).2.H = FIPS.compress ctx.H ctx.input := by
  rw [sha256_update_full e ctx hil]
  exact ⟨rfl, compress_eq_FIPS e ctx.H ctx.input hH hHb hB hBb⟩

/-- Witness for C15: the initial hash value and a block of 64 zero bytes. -/
theorem sha256_update_is_FIPS_compression_witness :
    (sha256_update Endian.little { sha256_init with input_length := 64 }).1 = 0
    ∧ (sha256_update Endian.little { sha256_init with input_length := 64 }).2.H
        = FIPS.compress sha256_init.H sha256_init.input :=
  sha256_update_is_FIPS_compression Endian.little { sha256_init with input_length := 64 }
    rfl (by unfold all_below; decide) rfl (by unfold all_below; decide) rfl

/-! ## SHA-256: short messages -/

theorem be_bytes_8 (x : Nat) : FIPS.be_bytes 8 x = (leBytes 8 x).reverse := by
  simp [FIPS.be_bytes, leBytes, Nat.div_div_eq_div_mul]

theorem hex_word (w : Nat) : hex_of_bytes (FIPS.be_bytes 4 w) = hexFixed 8 w := by
  simp only [hex_of_bytes, FIPS.be_bytes, hexFixed, List.map_cons, List.map_nil,
    List.flatten_cons, List.flatten_nil, List.nil_append, List.cons_append, List.append_nil,
    List.singleton_append]
  have e7 : w / 256 ^ 3 % 256 / 16 % 16 = w / 16 / 16 / 16 / 16 / 16 / 16 / 16 % 16 := by omega
  have e6 : w / 256 ^ 3 % 256 % 16 = w / 16 / 16 / 16 / 16 / 16 / 16 % 16 := by omega
  have e5 : w / 256 ^ 2 % 256 / 16 % 16 = w / 16 / 16 / 16 / 16 / 16 % 16 := by omega
  have e4 : w / 256 ^ 2 % 256 % 16 = w / 16 / 16 / 16 / 16 % 16 := by omega
  have e3 : w / 256 ^ 1 % 256 / 16 % 16 = w / 16 / 16 / 16 % 16 := by omega
  have e2 : w / 256 ^ 1 % 256 % 16 = w / 16 / 16 % 16 := by omega
  have e1 : w / 256 ^ 0 % 256 / 16 % 16 = w / 16 % 16 := by omega
  have e0 : w / 256 ^ 0 % 256 % 16 = w % 16 := by omega
  rw [e7, e6, e5, e4, e3, e2, e1, e0]

theorem hex_of_bytes_append (a b : List Nat) :
    hex_of_bytes (a ++ b) = hex_of_bytes a ++ hex_of_bytes b := by
  simp [hex_of_bytes]

/-- What `sha256_finish` displays for eight 32-bit words is the hexadecimal
rendering of their 32 big-endian bytes. -/
theorem sha256_display_words (ws : List Nat) (hl : ws.length = 8)
    (hb : all_below (2 ^ 32) ws) :
    sha256_display ws
      = ['0', 'x'] ++ hex_of_bytes ((ws.map fun w => FIPS.be_bytes 4 w).flatten) ++ ['\n'] := by
  match ws, hl with
  | [w0, w1, w2, w3, w4, w5, w6, w7], _ =>
    have hp : ∀ w ∈ [w0, w1, w2, w3, w4, w5, w6, w7], printf_0x 8 w = hexFixed 8 w :=
      fun w hw => printf_0x_eq_hexFixed 8 w (by decide)
        (lt_of_lt_of_le (hb w hw) (by decide))
    have hr : List.range HASH_SIZE_WORDS = [0, 1, 2, 3, 4, 5, 6, 7] := rfl
    unfold sha256_display
    rw [hr]
    simp only [List.map_cons, List.map_nil, List.getD_cons_zero, List.getD_cons_succ,
      List.flatten_cons, List.flatten_nil, hex_of_bytes_append, hex_word, List.append_nil]
    rw [hp w0 (by simp), hp w1 (by simp), hp w2 (by simp), hp w3 (by simp),
      hp w4 (by simp), hp w5 (by simp), hp w6 (by simp), hp w7 (by simp)]

theorem compress_length (e : Endian) (H B : List Nat) :
    (compress e H B).length = 8 ∧ all_below (2 ^ 32) (compress e H B) := by
  obtain ⟨a0, a1, a2, a3, a4, a5, a6, a7, hcomp⟩ :
      ∃ a0 a1 a2 a3 a4 a5 a6 a7, compress e H B
        = [a0 % 2 ^ 32, a1 % 2 ^ 32, a2 % 2 ^ 32, a3 % 2 ^ 32,
           a4 % 2 ^ 32, a5 % 2 ^ 32, a6 % 2 ^ 32, a7 % 2 ^ 32] :=
    ⟨_, _, _, _, _, _, _, _, rfl⟩
  rw [hcomp]
  refine ⟨rfl, ?_⟩
  intro x hx
  simp only [List.mem_cons, List.mem_singleton, List.not_mem_nil, or_false] at hx
  rcases hx with h | h | h | h | h | h | h | h <;> rw [h] <;> exact Nat.mod_lt _ (by decide)

/-- FIPS padding of a message of at most 54 bytes: one 64-byte block. -/
theorem FIPS_pad_short (M : List Nat) (h : M.length ≤ 54) :
    FIPS.pad M = M ++ [0x80] ++ List.replicate (55 - M.length) 0
      ++ (leBytes 8 (8 * M.length)).reverse := by
  unfold FIPS.pad
  rw [be_bytes_8, show (119 - M.length % 64) % 64 = 55 - M.length by omega,
    show 8 * M.length % 2 ^ 64 = 8 * M.length by omega]

theorem FIPS_pad_short_block (M : List Nat) (h : M.length ≤ 54)
    (hb : all_below 256 M) :
    (FIPS.pad M).length = 64 ∧ all_below 256 (FIPS.pad M) := by
  rw [FIPS_pad_short M h]
  constructor
  · simp only [List.length_append, List.length_singleton, List.length_replicate,
      List.length_reverse, leBytes_length]
    omega
  · intro x hx
    simp only [List.mem_append, List.mem_singleton, List.mem_replicate, List.mem_reverse] at hx
    rcases hx with ((hx | hx) | hx) | hx
    · exact hb x hx
    · rw [hx]; decide
    · rw [hx.2]; decide
    · exact leBytes_all_bytes 8 _ x hx

theorem FIPS_sha256_words_short (M : List Nat) (h : M.length ≤ 54) (hb : all_below 256 M) :
    FIPS.sha256_words M = FIPS.compress FIPS.H0 (FIPS.pad M) := by
  have hl := (FIPS_pad_short_block M h hb).1
  unfold FIPS.sha256_words
  simp only [hl]
  have hblock : FIPS.block (FIPS.pad M) 0 = FIPS.pad M := by
    unfold FIPS.block
    rw [Nat.mul_zero, List.drop_zero, List.take_of_length_le (by omega)]
  rw [show 64 / 64 = 1 from rfl, show List.range 1 = [0] from rfl, List.foldl_cons,
    List.foldl_nil, hblock]

/-- C23: short-message correctness. For every message of at most 54 bytes
(each below 256), fed in any chunking, on either host, the call sequence
init, process, finish returns 0 and prints `0x`, the hexadecimal rendering of
the FIPS 180-4 SHA-256 digest of the message, and a newline; that digest is a
single compression, from the initial hash value, of the block made of the
message, `0x80`, zero bytes and the 64-bit big-endian bit length. -/
theorem sha256_short_message_correct (e : Endian) (chunks : List (List Nat))
    (hlen : chunks.flatten.length ≤ 54) (hb : all_below 256 chunks.flatten) :
    sha256_run e chunks
      = some (0, ['0', 'x'] ++ hex_of_bytes (FIPS.sha256 chunks.flatten) ++ ['\n'])
    ∧ FIPS.sha256_words chunks.flatten
        = FIPS.compress FIPS.H0
            (chunks.flatten ++ [0x80] ++ List.replicate (55 - chunks.flatten.length) 0
              ++ FIPS.be_bytes 8 (8 * chunks.flatten.length)) := by
  have hpad := FIPS_pad_short chunks.flatten hlen
  have hce : compress e sha256_init.H (FIPS.pad chunks.flatten)
      = FIPS.compress sha256_init.H (FIPS.pad chunks.flatten) :=
    compress_eq_FIPS e sha256_init.H (FIPS.pad chunks.flatten) rfl
      (by unfold all_below; decide) (FIPS_pad_short_block chunks.flatten hlen hb).1
      (FIPS_pad_short_block chunks.flatten hlen hb).2
  obtain ⟨hpl, hpb⟩ := FIPS_pad_short_block chunks.flatten hlen hb
  have hwords := FIPS_sha256_words_short chunks.flatten hlen hb
  refine ⟨?_, by rw [hwords, hpad, be_bytes_8]⟩
  obtain ⟨c1, hf, _, hH⟩ := sha256_finish_after e chunks.flatten
  have hq : chunks.flatten.length / 64 = 0 := by omega
  have hfb : full_blocks chunks.flatten = [] := by
    unfold full_blocks; rw [hq]; rfl
  have hpb1 : sha256_padding_blocks (chunks.flatten.drop (64 * (chunks.flatten.length / 64)))
      = [FIPS.pad chunks.flatten] := by
    rw [hq, Nat.mul_zero, List.drop_zero, hpad]
    unfold sha256_padding_blocks
    rw [if_pos hlen]
  rw [hfb, hpb1, List.foldl_nil, List.foldl_cons, List.foldl_nil, hce,
    sha256_init_H_eq_FIPS, ← hwords] at hH
  have hrun : sha256_run e chunks = some (0, sha256_display c1.H) := by
    rw [sha256_run_eq]
    have ha : chunks.flatten.foldl (sha256_push e) sha256_init
        = sha256_after e chunks.flatten := by
      rw [← sha256_after_nil e, sha256_foldl_push_after]; rfl
    rw [ha, hf]
    rfl
  have hcl := compress_length e sha256_init.H (FIPS.pad chunks.flatten)
  rw [hce, sha256_init_H_eq_FIPS, ← hwords] at hcl
  rw [hrun, hH, sha256_display_words _ hcl.1 hcl.2]
  rfl

/-- Witness for C23: the message `abc` fed as `a` and `bc`. -/
theorem sha256_short_message_correct_witness :
    sha256_run Endian.big [[0x61], [0x62, 0x63]]
      = some (0, ['0', 'x'] ++ hex_of_bytes (FIPS.sha256 [[0x61], [0x62, 0x63]].flatten)
          ++ ['\n']) :=
  (sha256_short_message_correct Endian.big [[0x61], [0x62, 0x63]] (by decide)
    (by unfold all_below; decide)).1

end Checksum
